import Mathlib

/-!
# The snake game: movement and collision engine

A shallow embedding of `src/main.cpp`.  Rendering (sprites, window, text),
audio and wall-clock timing are left out; what remains is the grid state that
`Body`, `Snake`, `Food` and the tick block of `main` read and write.

* `int` coordinates and the score are modelled by `Int`.
* `std::vector<Body>` is a `List Body`; the head is the first element.
* An operation that dereferences `begin()` / `back()` of an empty vector has no
  defined behaviour in C++ and returns `none` here.
* The random cells drawn by `Food::Reset` are an explicit list of samples; a
  `do ... while` loop that is still running when the samples are used up
  yields `none`.
* `delay` is a `float`.  Its value is carried as the rational number it stands
  for, and `delay -= 0.01` is computed as C++ prescribes on an IEEE 754
  machine: the difference is taken in `double` (the literal `0.01` is the
  nearest `double`) and rounded back to `float`, round-to-nearest-even
  (`delayStep`).  Infinities and NaN are not modelled; `delay` stays far from
  the overflow range.
-/

namespace TheSnake

/-! ## Data model -/

/-- Board width in cells (`static const int M = 10`). -/
def M : Int := 10

/-- Board height in cells (`static const int N = 20`). -/
def N : Int := 20

/-- Mirror of `enum class Direction`. -/
inductive Direction where
  | NONE
  | UP
  | LEFT
  | DOWN
  | RIGHT
  deriving DecidableEq, Repr

/-- Mirror of `sf::Vector2i`: an integer grid coordinate. -/
structure Vector2i where
  x : Int
  y : Int
  deriving DecidableEq, Repr

/-- Mirror of `class Body`: the inherited `pos_` and the private `direction_`
(a freshly constructed body has `direction_ = NONE`). -/
structure Body where
  pos_ : Vector2i
  direction_ : Direction
  deriving DecidableEq, Repr

/-- Constructor `Body(texture, pos)`: the facing starts as `NONE`. -/
def Body.new (pos : Vector2i) : Body :=
  { pos_ := pos, direction_ := Direction.NONE }

/-- The `switch (direction_)` inside `Body::Move` (lines 65-80): the
coordinate update for each facing. -/
def Body.shift (pos : Vector2i) : Direction → Vector2i
  | Direction.UP => { pos with y := pos.y - 1 }
  | Direction.DOWN => { pos with y := pos.y + 1 }
  | Direction.LEFT => { pos with x := pos.x - 1 }
  | Direction.RIGHT => { pos with x := pos.x + 1 }
  | Direction.NONE => pos

/-- Mirror of `Body::Move(dir)`: returns the updated body together with the
returned value `prev_dir`. -/
def Body.Move (b : Body) (dir : Direction) : Body × Direction :=
  let prev_dir := b.direction_
  let direction_ := if dir ≠ Direction.NONE then dir else b.direction_
  ({ pos_ := Body.shift b.pos_ direction_, direction_ := direction_ }, prev_dir)

/-- Mirror of `class Snake`: the inherited vector of bodies, `tail_` and
`score_`. -/
structure Snake where
  bodies : List Body
  tail_ : Body
  score_ : Int
  deriving DecidableEq, Repr

/-- Mirror of `Snake::Head()`, which is `*begin()`. -/
def Snake.Head (s : Snake) : Option Body :=
  s.bodies.head?

/-- The inherited `back()`. -/
def Snake.back (s : Snake) : Option Body :=
  s.bodies.getLast?

/-- The constructor `Snake::Snake(bodies)` (the type itself carries that name
here): copies the list and initialises `tail_` from `back()`; `score_` starts
at 0. -/
def Snake.create (bodies : List Body) : Option Snake :=
  match bodies.getLast? with
  | none => none
  | some last => some { bodies := bodies, tail_ := last, score_ := 0 }

/-- Mirror of `Snake::CheckDirection(dir)`: the value of the reference
parameter `dir` after the call. -/
def Snake.CheckDirection (s : Snake) (dir : Direction) : Option Direction :=
  match s.Head with
  | none => none
  | some head =>
    if dir = head.direction_ ∨
        (dir = Direction.UP ∧ head.direction_ = Direction.DOWN) ∨
        (dir = Direction.DOWN ∧ head.direction_ = Direction.UP) ∨
        (dir = Direction.RIGHT ∧ head.direction_ = Direction.LEFT) ∨
        (dir = Direction.LEFT ∧ head.direction_ = Direction.RIGHT) then
      some Direction.NONE
    else
      some dir

/-- The test `at(i).GetPosition() == at(j).GetPosition()` of
`Snake::CheckIntersects`; `at` throws outside the vector, which the loop
bounds exclude. -/
def Snake.samePositionAt (s : Snake) (i j : Nat) : Bool :=
  match s.bodies[i]?, s.bodies[j]? with
  | some a, some b => decide (a.pos_ = b.pos_)
  | _, _ => false

/-- Mirror of `Snake::CheckIntersects()`: the wall test on the head, then the
double loop over all index pairs `i != j`. -/
def Snake.CheckIntersects (s : Snake) : Option Bool :=
  match s.Head with
  | none => none
  | some head =>
    if head.pos_.y < 0 ∨ head.pos_.y ≥ N ∨ head.pos_.x < 0 ∨ head.pos_.x ≥ M then
      some true
    else
      some ((List.range s.bodies.length).any fun i =>
        (List.range s.bodies.length).any fun j =>
          if i = j then false else s.samePositionAt i j)

/-- The range-for loop of `Snake::HasPosition` over the remaining bodies. -/
def Snake.hasPositionLoop (pos : Vector2i) : List Body → Bool
  | [] => false
  | body :: rest => if body.pos_ = pos then true else Snake.hasPositionLoop pos rest

/-- Mirror of `Snake::HasPosition(pos)`. -/
def Snake.HasPosition (s : Snake) (pos : Vector2i) : Bool :=
  Snake.hasPositionLoop pos s.bodies

/-- Mirror of `Snake::GetPosition()`: the position of the head. -/
def Snake.GetPosition (s : Snake) : Option Vector2i :=
  s.Head.map Body.pos_

/-- The range-for loop of `Snake::Move`.  `done` holds the bodies already
visited (in order), the list argument the bodies still to visit, and `dir` the
loop variable.  After a body has moved, a returned `NONE` is replaced by
`Head().GetDirection()`, read from the vector as it is at that moment. -/
def Snake.moveLoop (done : List Body) (dir : Direction) : List Body → List Body
  | [] => done
  | body :: rest =>
    let moved := body.Move dir
    let done1 := done ++ [moved.1]
    let headDir : Direction :=
      match (done1 ++ rest).head? with
      | some head => head.direction_
      | none => Direction.NONE
    let dir1 := if moved.2 = Direction.NONE then headDir else moved.2
    Snake.moveLoop done1 dir1 rest

/-- Mirror of `Snake::Move(dir)`. -/
def Snake.Move (s : Snake) (dir : Direction) : Option Snake :=
  match s.CheckDirection dir, s.Head, s.back with
  | some checked, some head, some last =>
    let dir1 := if checked = Direction.NONE then head.direction_ else checked
    some { s with tail_ := last, bodies := Snake.moveLoop [] dir1 s.bodies }
  | _, _, _ => none

/-- Mirror of `Snake::Eat()`: `push_back(tail_)` and `++score_`. -/
def Snake.Eat (s : Snake) : Snake :=
  { s with bodies := s.bodies ++ [s.tail_], score_ := s.score_ + 1 }

/-- Mirror of `Snake::GetScore()`. -/
def Snake.GetScore (s : Snake) : Int :=
  s.score_

/-- Consecutive calls `Move(d₁); Move(d₂); ...`, one per listed direction. -/
def Snake.Moves (s : Snake) : List Direction → Option Snake
  | [] => some s
  | d :: ds =>
    match s.Move d with
    | none => none
    | some s1 => Snake.Moves s1 ds

/-! ## Floating point -/

/-- The power of two `2 ^ e` for an integer exponent, as a rational. -/
def pow2 (e : Int) : ℚ :=
  if 0 ≤ e then ((2 ^ e.toNat : Nat) : ℚ) else 1 / ((2 ^ (-e).toNat : Nat) : ℚ)

/-- The position of the leading binary digit of `n` (0 for `n < 2`), by
halving at most `fuel` times. -/
def bitLog : Nat → Nat → Nat
  | 0, _ => 0
  | fuel + 1, n => if n < 2 then 0 else bitLog fuel (n / 2) + 1

/-- The binary exponent of a positive rational `a`: the `e` with
`2 ^ e ≤ a < 2 ^ (e + 1)`. -/
def binade (a : ℚ) : Int :=
  let e0 : Int := (bitLog a.num.natAbs a.num.natAbs : Int) - (bitLog a.den a.den : Int)
  if pow2 e0 ≤ a then e0 else e0 - 1

/-- IEEE 754 rounding of a rational to the nearest number with `p` significant
binary digits and least exponent `emin` (below it the spacing stays that of
`emin`: subnormal numbers), ties to the even significand. -/
def roundNearestEven (p : Nat) (emin : Int) (q : ℚ) : ℚ :=
  if q = 0 then 0
  else
    let a := if q < 0 then -q else q
    let ulp := pow2 (max (binade a) emin - (p : Int) + 1)
    let m := q / ulp
    let f := Rat.floor m
    let r := m - (f : ℚ)
    let n : Int :=
      if r < 1 / 2 then f
      else if 1 / 2 < r then f + 1
      else if f % 2 = 0 then f
      else f + 1
    (n : ℚ) * ulp

/-- Rounding to `float` (binary32: 24 significant digits, least exponent
-126). -/
def toFloat (q : ℚ) : ℚ :=
  roundNearestEven 24 (-126) q

/-- Rounding to `double` (binary64: 53 significant digits, least exponent
-1022). -/
def toDouble (q : ℚ) : ℚ :=
  roundNearestEven 53 (-1022) q

/-- The statement `delay -= 0.01` (line 304) on a `float delay`: `delay` is
converted to `double`, the `double` literal `0.01` is subtracted in `double`,
and the result is converted back to `float`. -/
def delayStep (delay : ℚ) : ℚ :=
  toFloat (toDouble (delay - toDouble (1 / 100)))

/-! ## The game loop -/

/-- The lambda `reset_food` of `main`: `Food::Reset` draws the next sampled
cell, and the `do ... while` loop repeats while the snake has that position.
The result is the food position when the loop exits. -/
def reset_food (snake : Snake) : List Vector2i → Option Vector2i
  | [] => none
  | cell :: more =>
    if snake.HasPosition cell then reset_food snake more else some cell

/-- The variables of `main` that the tick block reads and writes: the snake,
the food position, `delay` and the flag `GameOver`. -/
structure Game where
  snake : Snake
  food : Vector2i
  delay : ℚ
  GameOver : Bool

/-- The tick block of `main` (lines 287-312), entered when
`timer >= delay`; `direction` is the pending direction and `samples` the cells
that `Food::Reset` draws during this tick. -/
def tick (g : Game) (direction : Direction) (samples : List Vector2i) : Option Game :=
  if g.GameOver then
    some g
  else
    match g.snake.CheckIntersects with
    | none => none
    | some true => some { g with GameOver := true }
    | some false =>
      match g.snake.Move direction with
      | none => none
      | some moved =>
        if moved.GetPosition = some g.food then
          match reset_food moved.Eat samples with
          | none => none
          | some cell =>
            some { g with snake := moved.Eat, delay := delayStep g.delay, food := cell }
        else
          some { g with snake := moved }

/-- The snake that `main` constructs (lines 239-243). -/
def initialSnake : Option Snake :=
  Snake.create [Body.new ⟨2, 0⟩, Body.new ⟨1, 0⟩, Body.new ⟨0, 0⟩]

/-- The `GameBegin` block of `main` (lines 314-319) on the freshly
constructed snake: `Move(RIGHT)` followed by `reset_food()`, with
`delay = 0.5` and `GameOver = false`. -/
def opening (samples : List Vector2i) : Option Game :=
  match initialSnake with
  | none => none
  | some snake =>
    match snake.Move Direction.RIGHT with
    | none => none
    | some moved =>
      match reset_food moved samples with
      | none => none
      | some cell => some { snake := moved, food := cell, delay := 1 / 2, GameOver := false }

/-- Consecutive ticks, each with its own pending direction and samples. -/
def ticks (g : Game) : List (Direction × List Vector2i) → Option Game
  | [] => some g
  | (d, samples) :: more =>
    match tick g d samples with
    | none => none
    | some g1 => ticks g1 more

/-- The chain that the `GameBegin` block leaves behind: `(3,0),(2,0),(1,0)`,
all facing `RIGHT`, with `tail_` still the constructed last body. -/
def openingSnake : Snake :=
  { bodies := [⟨⟨3, 0⟩, Direction.RIGHT⟩, ⟨⟨2, 0⟩, Direction.RIGHT⟩, ⟨⟨1, 0⟩, Direction.RIGHT⟩],
    tail_ := ⟨⟨0, 0⟩, Direction.NONE⟩,
    score_ := 0 }

/-- A running game whose head stands at `x = 9` facing `RIGHT`, next to the
right wall of the 10-wide board. -/
def wallGame : Game :=
  { snake :=
      { bodies := [⟨⟨9, 0⟩, Direction.RIGHT⟩, ⟨⟨8, 0⟩, Direction.RIGHT⟩,
          ⟨⟨7, 0⟩, Direction.RIGHT⟩],
        tail_ := ⟨⟨6, 0⟩, Direction.RIGHT⟩,
        score_ := 0 },
    food := ⟨0, 5⟩,
    delay := 1 / 2,
    GameOver := false }

/-- The game `wallGame` one tick later: the head at `(10,0)` is off the
board. -/
def wallGameOff : Game :=
  { snake :=
      { bodies := [⟨⟨10, 0⟩, Direction.RIGHT⟩, ⟨⟨9, 0⟩, Direction.RIGHT⟩,
          ⟨⟨8, 0⟩, Direction.RIGHT⟩],
        tail_ := ⟨⟨7, 0⟩, Direction.RIGHT⟩,
        score_ := 0 },
    food := ⟨0, 5⟩,
    delay := 1 / 2,
    GameOver := false }

/-- A chain with two segments on the same cell. -/
def overlappingSnake : Snake :=
  { bodies := [⟨⟨1, 0⟩, Direction.RIGHT⟩, ⟨⟨1, 0⟩, Direction.RIGHT⟩],
    tail_ := ⟨⟨0, 0⟩, Direction.RIGHT⟩,
    score_ := 0 }

/-- A running game with the chain `(2,0),(1,0),(0,0)` heading `RIGHT` and the
food at `(5,0)`. -/
def scenarioGame : Game :=
  { snake :=
      { bodies := [⟨⟨2, 0⟩, Direction.RIGHT⟩, ⟨⟨1, 0⟩, Direction.RIGHT⟩,
          ⟨⟨0, 0⟩, Direction.RIGHT⟩],
        tail_ := ⟨⟨0, 0⟩, Direction.RIGHT⟩,
        score_ := 0 },
    food := ⟨5, 0⟩,
    delay := 1 / 2,
    GameOver := false }

/-- The game `scenarioGame` two ticks later: the head at `(4,0)` is one step
from the food. -/
def foodGame : Game :=
  { snake :=
      { bodies := [⟨⟨4, 0⟩, Direction.RIGHT⟩, ⟨⟨3, 0⟩, Direction.RIGHT⟩,
          ⟨⟨2, 0⟩, Direction.RIGHT⟩],
        tail_ := ⟨⟨1, 0⟩, Direction.RIGHT⟩,
        score_ := 0 },
    food := ⟨5, 0⟩,
    delay := 1 / 2,
    GameOver := false }

/-! ## Vocabulary of the statements -/

/-- A position is on the board when `0 ≤ x < M` and `0 ≤ y < N`. -/
def onBoard (p : Vector2i) : Prop :=
  0 ≤ p.x ∧ p.x < M ∧ 0 ≤ p.y ∧ p.y < N

instance (p : Vector2i) : Decidable (onBoard p) := by
  unfold onBoard; infer_instance

/-- Two directions are directly opposite: `UP` with `DOWN`, `LEFT` with
`RIGHT`. -/
def Direction.Opposite (a b : Direction) : Prop :=
  (a = Direction.UP ∧ b = Direction.DOWN) ∨ (a = Direction.DOWN ∧ b = Direction.UP) ∨
  (a = Direction.LEFT ∧ b = Direction.RIGHT) ∨ (a = Direction.RIGHT ∧ b = Direction.LEFT)

instance (a b : Direction) : Decidable (Direction.Opposite a b) := by
  unfold Direction.Opposite; infer_instance

/-- A position is on the board or exactly one cell outside it: next to one of
the four edges. -/
def nearBoard (p : Vector2i) : Prop :=
  onBoard p ∨
  ((p.x = -1 ∨ p.x = M) ∧ 0 ≤ p.y ∧ p.y < N) ∨
  ((p.y = -1 ∨ p.y = N) ∧ 0 ≤ p.x ∧ p.x < M)

instance (p : Vector2i) : Decidable (nearBoard p) := by
  unfold nearBoard; infer_instance

/-- A chain is connected when every facing is not `NONE` and every segment
`i` stands where segment `i + 1` would be after moving one unit in segment
`i`'s facing. -/
def Snake.Connected (s : Snake) : Prop :=
  (∀ b ∈ s.bodies, b.direction_ ≠ Direction.NONE) ∧
  ∀ (i : Nat) (a b : Body), s.bodies[i]? = some a → s.bodies[i + 1]? = some b →
    a.pos_ = Body.shift b.pos_ a.direction_

/-- The connectedness condition of `Snake.Connected`, by recursion over the
list of bodies (`Snake.connected_iff_linked`); this form is decidable. -/
def Snake.linked : List Body → Prop
  | [] => True
  | [a] => a.direction_ ≠ Direction.NONE
  | a :: b :: rest =>
    a.direction_ ≠ Direction.NONE ∧ a.pos_ = Body.shift b.pos_ a.direction_ ∧
      Snake.linked (b :: rest)

instance Snake.decidableLinked : (bodies : List Body) → Decidable (Snake.linked bodies)
  | [] => isTrue trivial
  | [a] => inferInstanceAs (Decidable (a.direction_ ≠ Direction.NONE))
  | a :: b :: rest =>
    have := Snake.decidableLinked (b :: rest)
    inferInstanceAs (Decidable (a.direction_ ≠ Direction.NONE ∧
      a.pos_ = Body.shift b.pos_ a.direction_ ∧ Snake.linked (b :: rest)))

/-- The naive shift of a list of positions: the new head cell followed by the
old positions with the last one dropped. -/
def naiveShift (newHead : Vector2i) (positions : List Vector2i) : List Vector2i :=
  newHead :: positions.dropLast

/-- The value of `delay` after `k` executions of `delay -= 0.01` (line 304),
starting from `float delay = 0.5` (line 246). -/
def delayAfter : Nat → ℚ
  | 0 => 1 / 2
  | k + 1 => delayStep (delayAfter k)

/-- The game `wallGameOff` one tick later: the collision has been detected. -/
def wallGameOver : Game :=
  { wallGameOff with GameOver := true }

/-- The game after the `GameBegin` block when the first sampled cell is
`cell`. -/
def openingGame (cell : Vector2i) : Game :=
  { snake := openingSnake, food := cell, delay := 1 / 2, GameOver := false }

/-- The game `foodGame` one tick later, with `(7,7)` drawn for the new food:
the chain has eaten once. -/
def fedGame : Game :=
  { snake :=
      { bodies := [⟨⟨5, 0⟩, Direction.RIGHT⟩, ⟨⟨4, 0⟩, Direction.RIGHT⟩,
          ⟨⟨3, 0⟩, Direction.RIGHT⟩, ⟨⟨2, 0⟩, Direction.RIGHT⟩],
        tail_ := ⟨⟨2, 0⟩, Direction.RIGHT⟩,
        score_ := 1 },
    food := ⟨7, 7⟩,
    delay := delayStep (1 / 2),
    GameOver := false }

/-- A tick that eats, written out: in a running game the head `b0` steps in
the effective direction onto the food cell, the chain grows by the old last
body and `cell`, the one sample drawn, is free of the grown chain.  It is
`none` when the tick is not of this kind.  `eatTick_tick` shows that `tick`
returns the same game. -/
def eatTick (g : Game) (d : Direction) (cell : Vector2i) : Option Game :=
  match g.snake.bodies with
  | [] => none
  | b0 :: rest =>
    let e :=
      if d ≠ Direction.NONE ∧ d ≠ b0.direction_ ∧ ¬ Direction.Opposite d b0.direction_ then d
      else b0.direction_
    let grown : Snake :=
      { bodies := ⟨g.food, e⟩ :: b0 :: rest,
        tail_ := ((b0 :: rest).getLast?).getD b0,
        score_ := g.snake.score_ + 1 }
    if Body.shift b0.pos_ e = g.food ∧ onBoard g.food ∧ grown.HasPosition cell = false then
      some { snake := grown, food := cell, delay := delayStep g.delay, GameOver := false }
    else none

/-- Consecutive eating ticks, one per listed pair of pending direction and
sampled cell. -/
def eatRun (g : Game) : List (Direction × Vector2i) → Option Game
  | [] => some g
  | (d, cell) :: more =>
    match eatTick g d cell with
    | none => none
    | some g1 => eatRun g1 more

/-- A path over the whole board from the opening head cell `(3,0)`: right
along row 0, then back and forth over the columns 1 to 9 of the rows 1 to 19,
and at last up column 0 to `(0,0)`.  `pathDir c` is the step taken from `c`. -/
def pathDir (c : Vector2i) : Direction :=
  if c.x = 0 then Direction.UP
  else if c.y % 2 = 0 then (if c.x = 9 then Direction.DOWN else Direction.RIGHT)
  else if c.x = 1 then (if c.y = 19 then Direction.LEFT else Direction.DOWN)
  else Direction.LEFT

/-- The first `n` steps of the path from the head cell `h`: for each tick the
pending direction and the cell sampled for the next food, which is the cell
after the one the head is about to enter. -/
def pathRun : Nat → Vector2i → List (Direction × Vector2i)
  | 0, _ => []
  | n + 1, h =>
    (pathDir h, Body.shift (Body.shift h (pathDir h)) (pathDir (Body.shift h (pathDir h)))) ::
      pathRun n (Body.shift h (pathDir h))

/-- The inputs of `n` ticks along the path: each tick draws one sample. -/
def pathInputs (n : Nat) : List (Direction × List Vector2i) :=
  (pathRun n ⟨3, 0⟩).map fun step => (step.1, [step.2])

/-- Every cell of the board other than the corner `(0,0)` is occupied by the
chain. -/
def coveredButCorner (s : Snake) : Bool :=
  (List.range 10).all fun x => (List.range 20).all fun y =>
    (x = 0 ∧ y = 0) || s.HasPosition ⟨(x : Int), (y : Int)⟩

/-- The invariant of a run of eating ticks: the game is running, the chain is
non-empty and connected, all of it on the board, no two segments on the same
cell, and the food cell is free. -/
def Game.Tidy (g : Game) : Prop :=
  g.GameOver = false ∧ g.snake.bodies ≠ [] ∧ Snake.linked g.snake.bodies ∧
  (∀ b ∈ g.snake.bodies, onBoard b.pos_) ∧ (g.snake.bodies.map Body.pos_).Nodup ∧
  g.snake.HasPosition g.food = false

/-- A chain as constructed: `(2,0),(1,0),(0,0)`, every facing `NONE`. -/
def freshSnake : Snake :=
  { bodies := [Body.new ⟨2, 0⟩, Body.new ⟨1, 0⟩, Body.new ⟨0, 0⟩],
    tail_ := Body.new ⟨0, 0⟩,
    score_ := 0 }

/-- The invariant of the game loop that the proofs carry along a run: the
chain is non-empty and connected, every segment behind the head is on the
board, the head is on the board or one cell outside it, the food cell is not
occupied, the score is not negative and `delay` is the value after that many
executions of `delay -= 0.01`. -/
def Game.Sound (g : Game) : Prop :=
  g.snake.bodies ≠ [] ∧ Snake.linked g.snake.bodies ∧
  (∀ b ∈ g.snake.bodies.tail, onBoard b.pos_) ∧
  (∃ h, g.snake.Head = some h ∧ nearBoard h.pos_) ∧
  g.snake.HasPosition g.food = false ∧
  0 ≤ g.snake.score_ ∧ g.delay = delayAfter g.snake.score_.toNat

/-- Closed form of the loop of `Snake::Move` once the head has been visited:
`headDir` is the facing the head has by then, `dir` the loop variable.  Used
by the proofs only; `moveLoop_cons` relates it to `Snake.moveLoop`. -/
def Snake.follow (headDir : Direction) (dir : Direction) : List Body → List Body
  | [] => []
  | body :: rest =>
    (body.Move dir).1 ::
      Snake.follow headDir
        (if body.direction_ = Direction.NONE then headDir else body.direction_) rest

/-! ## Auxiliary lemmas -/

theorem Body.shift_unit (p : Vector2i) :
    Body.shift p Direction.UP = ⟨p.x, p.y - 1⟩ ∧
    Body.shift p Direction.DOWN = ⟨p.x, p.y + 1⟩ ∧
    Body.shift p Direction.LEFT = ⟨p.x - 1, p.y⟩ ∧
    Body.shift p Direction.RIGHT = ⟨p.x + 1, p.y⟩ ∧
    Body.shift p Direction.NONE = p :=
  ⟨rfl, rfl, rfl, rfl, rfl⟩

theorem Body.shift_cases (p q : Vector2i) (d : Direction) (h : q = Body.shift p d) :
    (d = Direction.UP → q = ⟨p.x, p.y - 1⟩) ∧
    (d = Direction.DOWN → q = ⟨p.x, p.y + 1⟩) ∧
    (d = Direction.LEFT → q = ⟨p.x - 1, p.y⟩) ∧
    (d = Direction.RIGHT → q = ⟨p.x + 1, p.y⟩) ∧
    (d = Direction.NONE → q = p) := by
  subst h
  refine ⟨?_, ?_, ?_, ?_, ?_⟩ <;> intro hd <;> subst hd <;> rfl

theorem Snake.moveLoop_append (first : Body) (pre : List Body) (dir : Direction)
    (todo : List Body) :
    Snake.moveLoop (first :: pre) dir todo =
      (first :: pre) ++ Snake.follow first.direction_ dir todo := by
  induction todo generalizing pre dir with
  | nil => simp [Snake.moveLoop, Snake.follow]
  | cons b rest ih =>
    have step : Snake.moveLoop (first :: pre) dir (b :: rest) =
        Snake.moveLoop (first :: (pre ++ [(b.Move dir).1]))
          (if b.direction_ = Direction.NONE then first.direction_ else b.direction_) rest := by
      simp [Snake.moveLoop, Body.Move]
    rw [step, ih]
    simp [Snake.follow]

theorem Snake.moveLoop_cons (b : Body) (rest : List Body) (dir : Direction) :
    Snake.moveLoop [] dir (b :: rest) =
      (b.Move dir).1 ::
        Snake.follow (b.Move dir).1.direction_
          (if b.direction_ = Direction.NONE then (b.Move dir).1.direction_ else b.direction_)
          rest := by
  have step : Snake.moveLoop [] dir (b :: rest) =
      Snake.moveLoop [(b.Move dir).1]
        (if b.direction_ = Direction.NONE then (b.Move dir).1.direction_ else b.direction_)
        rest := by
    simp [Snake.moveLoop, Body.Move]
  rw [step, Snake.moveLoop_append]
  simp

theorem Snake.follow_length (headDir dir : Direction) (todo : List Body) :
    (Snake.follow headDir dir todo).length = todo.length := by
  induction todo generalizing dir with
  | nil => rfl
  | cons b rest ih => simp [Snake.follow, ih]

theorem Snake.CheckDirection_cons (b : Body) (rest : List Body) (t : Body) (sc : Int)
    (r : Direction) :
    Snake.CheckDirection ⟨b :: rest, t, sc⟩ r =
      some (if r = b.direction_ ∨ Direction.Opposite r b.direction_ then Direction.NONE
        else r) := by
  rcases b with ⟨p, d⟩
  cases r <;> cases d <;> simp [Snake.CheckDirection, Snake.Head, Direction.Opposite]

/-- What `Snake::Move` returns on a chain `b :: rest`: the loop is run with the
effective direction. -/
theorem Snake.Move_cons (b : Body) (rest : List Body) (t : Body) (sc : Int) (r : Direction) :
    ∃ last, (b :: rest).getLast? = some last ∧
      Snake.Move ⟨b :: rest, t, sc⟩ r =
        some ⟨Snake.moveLoop []
          (if r ≠ Direction.NONE ∧ r ≠ b.direction_ ∧ ¬ Direction.Opposite r b.direction_ then r
            else b.direction_)
          (b :: rest), last, sc⟩ := by
  obtain ⟨last, hlast⟩ : ∃ last, (b :: rest).getLast? = some last := by
    cases h : (b :: rest).getLast? with
    | none => simp at h
    | some l => exact ⟨l, rfl⟩
  refine ⟨last, hlast, ?_⟩
  have hc := Snake.CheckDirection_cons b rest t sc r
  simp only [Snake.Move, hc, Snake.Head, Snake.back, List.head?_cons, hlast]
  rcases b with ⟨p, d⟩
  cases r <;> cases d <;> simp [Direction.Opposite]

theorem Snake.follow_getElem? (headDir : Direction) (prev : Body) (todo : List Body)
    (hprev : prev.direction_ ≠ Direction.NONE)
    (hall : ∀ b ∈ todo, b.direction_ ≠ Direction.NONE)
    (i : Nat) (a b : Body)
    (ha : (prev :: todo)[i]? = some a) (hb : (prev :: todo)[i + 1]? = some b) :
    (Snake.follow headDir prev.direction_ todo)[i]? =
      some ⟨Body.shift b.pos_ a.direction_, a.direction_⟩ := by
  induction todo generalizing prev i with
  | nil => simp at hb
  | cons c rest ih =>
    have hc : c.direction_ ≠ Direction.NONE := hall c (List.mem_cons_self _ _)
    have hrest : ∀ x ∈ rest, x.direction_ ≠ Direction.NONE :=
      fun x hx => hall x (List.mem_cons_of_mem _ hx)
    cases i with
    | zero =>
      simp only [List.getElem?_cons_zero, List.getElem?_cons_succ, Option.some.injEq] at ha hb
      subst ha hb
      simp [Snake.follow, Body.Move, hprev]
    | succ k =>
      simp only [List.getElem?_cons_succ] at ha hb
      have := ih c hc hrest k ha (by simpa using hb)
      simpa [Snake.follow, hc] using this

/-! ## Direction validation and movement (C1 - C3) -/

/-- C2. `Snake::CheckDirection` on a chain whose head faces `h.direction_`:
the result is `NONE` when the request equals the head's facing or is directly
opposite to it, `NONE` when the request is `NONE`, and the request itself in
every other case. -/
theorem Snake.CheckDirection_spec (s : Snake) (r : Direction) (h : Body)
    (hhead : s.Head = some h) :
    ((r = h.direction_ ∨ Direction.Opposite r h.direction_) →
      s.CheckDirection r = some Direction.NONE) ∧
    (r = Direction.NONE → s.CheckDirection r = some Direction.NONE) ∧
    (¬ (r = h.direction_ ∨ Direction.Opposite r h.direction_) → r ≠ Direction.NONE →
      s.CheckDirection r = some r) := by
  rcases s with ⟨bodies, t, sc⟩
  cases bodies with
  | nil => simp [Snake.Head] at hhead
  | cons b rest =>
    simp only [Snake.Head, List.head?_cons, Option.some.injEq] at hhead
    subst hhead
    rw [Snake.CheckDirection_cons]
    refine ⟨fun hc => by simp [hc], fun hn => ?_, fun hc _ => by simp [hc]⟩
    subst hn
    split_ifs <;> rfl

/-- C1. `Snake::Move` on a chain with head `h` and request `r`: with
`e = r` when `r` is not `NONE`, not the head's facing and not opposite to it,
and `e` the head's facing otherwise, the call returns a chain whose head faces
`e` and stands one grid unit from `h.pos_` in direction `e` (UP: y-1,
DOWN: y+1, LEFT: x-1, RIGHT: x+1, NONE: unchanged). -/
theorem Snake.Move_head (s : Snake) (r : Direction) (h : Body) (hhead : s.Head = some h) :
    ∃ s1 h1, s.Move r = some s1 ∧ s1.Head = some h1 ∧
      h1.direction_ =
        (if r ≠ Direction.NONE ∧ r ≠ h.direction_ ∧ ¬ Direction.Opposite r h.direction_ then r
          else h.direction_) ∧
      h1.pos_ = Body.shift h.pos_ h1.direction_ ∧
      (h1.direction_ = Direction.UP → h1.pos_ = ⟨h.pos_.x, h.pos_.y - 1⟩) ∧
      (h1.direction_ = Direction.DOWN → h1.pos_ = ⟨h.pos_.x, h.pos_.y + 1⟩) ∧
      (h1.direction_ = Direction.LEFT → h1.pos_ = ⟨h.pos_.x - 1, h.pos_.y⟩) ∧
      (h1.direction_ = Direction.RIGHT → h1.pos_ = ⟨h.pos_.x + 1, h.pos_.y⟩) ∧
      (h1.direction_ = Direction.NONE → h1.pos_ = h.pos_) := by
  rcases s with ⟨bodies, t, sc⟩
  cases bodies with
  | nil => simp [Snake.Head] at hhead
  | cons b rest =>
    simp only [Snake.Head, List.head?_cons, Option.some.injEq] at hhead
    subst hhead
    obtain ⟨last, -, hmove⟩ := Snake.Move_cons b rest t sc r
    rw [Snake.moveLoop_cons] at hmove
    refine ⟨_, _, hmove, rfl, ?_, ?_, ?_⟩
    · rcases b with ⟨p, d⟩
      cases r <;> cases d <;> simp [Body.Move, Direction.Opposite]
    · rcases b with ⟨p, d⟩
      cases r <;> cases d <;> simp [Body.Move, Direction.Opposite]
    · exact Body.shift_cases _ _ _ rfl

/-- C3. Follow-the-leader: on a non-empty chain all of whose facings are not
`NONE`, `Snake::Move` returns a chain of the same length in which every
trailing segment `i + 1` faces the way segment `i` faced before the call and
stands one grid unit (`Body.shift`) from its own old position in that
direction. -/
theorem Snake.Move_trailing (s : Snake) (r : Direction) (hne : s.bodies ≠ [])
    (hall : ∀ b ∈ s.bodies, b.direction_ ≠ Direction.NONE) :
    ∃ s1, s.Move r = some s1 ∧ s1.bodies.length = s.bodies.length ∧
      ∀ (i : Nat) (a b : Body), s.bodies[i]? = some a → s.bodies[i + 1]? = some b →
        s1.bodies[i + 1]? = some ⟨Body.shift b.pos_ a.direction_, a.direction_⟩ := by
  rcases s with ⟨bodies, t, sc⟩
  cases bodies with
  | nil => exact absurd rfl hne
  | cons b0 rest =>
    obtain ⟨last, -, hmove⟩ := Snake.Move_cons b0 rest t sc r
    rw [Snake.moveLoop_cons] at hmove
    have h0 : b0.direction_ ≠ Direction.NONE := hall b0 (List.mem_cons_self _ _)
    have hrest : ∀ x ∈ rest, x.direction_ ≠ Direction.NONE :=
      fun x hx => hall x (List.mem_cons_of_mem _ hx)
    refine ⟨_, hmove, by simp [Snake.follow_length], fun i a b ha hb => ?_⟩
    simp only [List.getElem?_cons_succ, if_neg h0]
    exact Snake.follow_getElem? _ b0 rest h0 hrest i a b ha hb

/-! ## Collision test (C4) -/

theorem Snake.samePositionAt_eq_true (s : Snake) (i j : Nat) :
    s.samePositionAt i j = true ↔
      ∃ a b, s.bodies[i]? = some a ∧ s.bodies[j]? = some b ∧ a.pos_ = b.pos_ := by
  unfold Snake.samePositionAt
  cases hi : s.bodies[i]? <;> cases hj : s.bodies[j]? <;> simp

/-- C4. `Snake::CheckIntersects` on a chain with head `h` returns a value, and
that value is `true` exactly when the head is outside the board (x < 0,
x >= 10, y < 0 or y >= 20) or two segments at different indices have the same
position. -/
theorem Snake.CheckIntersects_iff (s : Snake) (h : Body) (hhead : s.Head = some h) :
    ∃ res, s.CheckIntersects = some res ∧
      (res = true ↔
        ((h.pos_.x < 0 ∨ h.pos_.x ≥ 10 ∨ h.pos_.y < 0 ∨ h.pos_.y ≥ 20) ∨
          ∃ (i j : Nat) (a b : Body), i ≠ j ∧ s.bodies[i]? = some a ∧ s.bodies[j]? = some b ∧
            a.pos_ = b.pos_)) := by
  have hpair : ((List.range s.bodies.length).any fun i =>
        (List.range s.bodies.length).any fun j =>
          if i = j then false else s.samePositionAt i j) = true ↔
      ∃ (i j : Nat) (a b : Body), i ≠ j ∧ s.bodies[i]? = some a ∧ s.bodies[j]? = some b ∧
        a.pos_ = b.pos_ := by
    simp only [List.any_eq_true, List.mem_range]
    constructor
    · rintro ⟨i, -, j, -, hij⟩
      by_cases hne : i = j
      · simp [hne] at hij
      · rw [if_neg hne, Snake.samePositionAt_eq_true] at hij
        obtain ⟨a, b, ha, hb, hab⟩ := hij
        exact ⟨i, j, a, b, hne, ha, hb, hab⟩
    · rintro ⟨i, j, a, b, hne, ha, hb, hab⟩
      have hi : i < s.bodies.length := (List.getElem?_eq_some.mp ha).1
      have hj : j < s.bodies.length := (List.getElem?_eq_some.mp hb).1
      refine ⟨i, hi, j, hj, ?_⟩
      rw [if_neg hne, Snake.samePositionAt_eq_true]
      exact ⟨a, b, ha, hb, hab⟩
  by_cases hwall : h.pos_.y < 0 ∨ h.pos_.y ≥ N ∨ h.pos_.x < 0 ∨ h.pos_.x ≥ M
  · refine ⟨true, by simp [Snake.CheckIntersects, hhead, hwall], ?_⟩
    simp only [M, N] at hwall
    simp only [true_iff]
    left
    tauto
  · have hres : s.CheckIntersects = some ((List.range s.bodies.length).any fun i =>
        (List.range s.bodies.length).any fun j =>
          if i = j then false else s.samePositionAt i j) := by
      simp only [Snake.CheckIntersects, hhead, if_neg hwall]
    refine ⟨_, hres, ?_⟩
    rw [hpair]
    simp only [M, N] at hwall
    constructor
    · exact fun hx => Or.inr hx
    · rintro (hw | hx)
      · exact absurd (by tauto) hwall
      · exact hx

/-! ## Occupancy and food placement (C10, C7) -/

/-- C10. `Snake::HasPosition(p)` is `true` exactly when some segment of the
chain has position `p`. -/
theorem Snake.HasPosition_iff (s : Snake) (p : Vector2i) :
    s.HasPosition p = true ↔ ∃ b ∈ s.bodies, b.pos_ = p := by
  unfold Snake.HasPosition
  induction s.bodies with
  | nil => simp [Snake.hasPositionLoop]
  | cons b rest ih =>
    by_cases hb : b.pos_ = p
    · simp [Snake.hasPositionLoop, hb]
    · simp [Snake.hasPositionLoop, hb, ih]

theorem reset_food_first_free (snake : Snake) (samples : List Vector2i) (cell : Vector2i) :
    reset_food snake samples = some cell ↔
      ∃ pre post, samples = pre ++ cell :: post ∧
        (∀ q ∈ pre, snake.HasPosition q = true) ∧ snake.HasPosition cell = false := by
  induction samples with
  | nil => simp [reset_food]
  | cons c more ih =>
    by_cases hc : snake.HasPosition c = true
    · simp only [reset_food, hc, if_true, ih]
      constructor
      · rintro ⟨pre, post, hsplit, hpre, hfree⟩
        refine ⟨c :: pre, post, by simp [hsplit], ?_, hfree⟩
        intro q hq
        rcases List.mem_cons.mp hq with rfl | hq
        · exact hc
        · exact hpre q hq
      · rintro ⟨pre, post, hsplit, hpre, hfree⟩
        cases pre with
        | nil =>
          simp only [List.nil_append, List.cons.injEq] at hsplit
          rw [hsplit.1, hfree] at hc
          exact absurd hc (by simp)
        | cons q pre1 =>
          simp only [List.cons_append, List.cons.injEq] at hsplit
          exact ⟨pre1, post, hsplit.2, fun x hx => hpre x (List.mem_cons_of_mem _ hx), hfree⟩
    · have hc1 : snake.HasPosition c = false := by simpa using hc
      simp only [reset_food, hc1, Bool.false_eq_true, if_false, Option.some.injEq]
      constructor
      · rintro rfl
        exact ⟨[], more, rfl, by simp, hc1⟩
      · rintro ⟨pre, post, hsplit, hpre, hfree⟩
        cases pre with
        | nil =>
          simp only [List.nil_append, List.cons.injEq] at hsplit
          exact hsplit.1
        | cons q pre1 =>
          simp only [List.cons_append, List.cons.injEq] at hsplit
          have := hpre q (List.mem_cons_self _ _)
          rw [← hsplit.1, hc1] at this
          exact absurd this (by simp)

/-- C7. `reset_food` returns `cell` exactly when `cell` is the first sampled
cell that the snake does not occupy: every earlier sample is occupied and
`HasPosition cell` is `false`.  In particular it returns as soon as the
samples contain a free cell, and never returns an occupied one. -/
theorem reset_food_eq_some_iff (snake : Snake) (samples : List Vector2i) (cell : Vector2i) :
    reset_food snake samples = some cell ↔
      ∃ pre post, samples = pre ++ cell :: post ∧
        (∀ q ∈ pre, snake.HasPosition q = true) ∧ snake.HasPosition cell = false :=
  reset_food_first_free snake samples cell

/-! ## Growth and chain length (C8, C9) -/

theorem Snake.Move_length (s : Snake) (r : Direction) (hne : s.bodies ≠ []) :
    ∃ s1 last, s.Move r = some s1 ∧ s.bodies.getLast? = some last ∧ s1.tail_ = last ∧
      s1.score_ = s.score_ ∧ s1.bodies.length = s.bodies.length := by
  rcases s with ⟨bodies, t, sc⟩
  cases bodies with
  | nil => exact absurd rfl hne
  | cons b rest =>
    obtain ⟨last, hlast, hmove⟩ := Snake.Move_cons b rest t sc r
    rw [Snake.moveLoop_cons] at hmove
    exact ⟨_, last, hmove, hlast, rfl, rfl, by simp [Snake.follow_length]⟩

/-- C8. After `Move` followed by `Eat` on a non-empty chain, the chain is the
moved chain with one body appended, and that last body is the body (position
and facing) that was last immediately before the `Move`. -/
theorem Snake.Move_Eat_last (s : Snake) (r : Direction) (hne : s.bodies ≠ []) :
    ∃ s1 last, s.Move r = some s1 ∧ s.bodies.getLast? = some last ∧
      s1.Eat.bodies = s1.bodies ++ [last] ∧ s1.Eat.bodies.getLast? = some last := by
  obtain ⟨s1, last, hmove, hlast, htail, -, -⟩ := Snake.Move_length s r hne
  exact ⟨s1, last, hmove, hlast, by simp [Snake.Eat, htail], by simp [Snake.Eat, htail]⟩

theorem Snake.Moves_length (s : Snake) (ds : List Direction) (hne : s.bodies ≠ []) :
    ∃ s1, s.Moves ds = some s1 ∧ s1.bodies.length = s.bodies.length := by
  induction ds generalizing s with
  | nil => exact ⟨s, rfl, rfl⟩
  | cons d more ih =>
    obtain ⟨s1, -, hmove, -, -, -, hlen⟩ := Snake.Move_length s d hne
    have hne1 : s1.bodies ≠ [] := by
      intro h0
      rw [h0] at hlen
      exact hne (List.length_eq_zero.mp hlen.symm)
    obtain ⟨s2, hmoves, hlen2⟩ := ih s1 hne1
    exact ⟨s2, by simp [Snake.Moves, hmove, hmoves], by rw [hlen2, hlen]⟩

/-- C9. On a non-empty chain, any number of consecutive `Move` calls (one per
direction of `ds`) returns a chain with the same number of segments; `Eat`
makes the chain exactly one segment longer and leaves every segment that was
there before (position and facing) as it was. -/
theorem Snake.Moves_length_Eat_frame (s : Snake) (ds : List Direction) (hne : s.bodies ≠ []) :
    (∃ s1, s.Moves ds = some s1 ∧ s1.bodies.length = s.bodies.length) ∧
    s.Eat.bodies.length = s.bodies.length + 1 ∧
    ∀ i, i < s.bodies.length → s.Eat.bodies[i]? = s.bodies[i]? := by
  refine ⟨Snake.Moves_length s ds hne, by simp [Snake.Eat], fun i hi => ?_⟩
  simp [Snake.Eat, List.getElem?_append_left hi]

/-! ## The tick block (C5) -/

theorem Snake.CheckIntersects_off_board (s : Snake) (h : Body) (hhead : s.Head = some h)
    (hout : ¬ onBoard h.pos_) : s.CheckIntersects = some true := by
  have hwall : h.pos_.y < 0 ∨ h.pos_.y ≥ N ∨ h.pos_.x < 0 ∨ h.pos_.x ≥ M := by
    unfold onBoard at hout
    by_contra hcon
    push_neg at hcon
    exact hout ⟨hcon.2.2.1, hcon.2.2.2, hcon.1, hcon.2.1⟩
  simp [Snake.CheckIntersects, hhead, hwall]

/-- What the tick block does in a running game that passes the collision
test, in terms of the moved chain. -/
theorem tick_running (g : Game) (d : Direction) (samples : List Vector2i) (moved : Snake)
    (hrun : g.GameOver = false) (hchk : g.snake.CheckIntersects = some false)
    (hmove : g.snake.Move d = some moved) :
    tick g d samples =
      if moved.GetPosition = some g.food then
        (reset_food moved.Eat samples).map fun cell =>
          { g with snake := moved.Eat, delay := delayStep g.delay, food := cell }
      else some { g with snake := moved } := by
  simp only [tick, hrun, hchk, hmove, Bool.false_eq_true, if_false]
  split_ifs
  · cases reset_food moved.Eat samples <;> rfl
  · rfl

/-- C5, as the code has it.  In a running game whose head is on the board, a
tick after which the head is off the board leaves `GameOver` unset at the end
of that tick; the following tick, whatever its pending direction and samples,
sets `GameOver` and changes nothing else. -/
theorem tick_wall_detected_next_tick (g g1 : Game) (d : Direction) (samples : List Vector2i)
    (hrun : g.GameOver = false)
    (hin : ∃ h, g.snake.Head = some h ∧ onBoard h.pos_)
    (htick : tick g d samples = some g1)
    (hout : ∃ h1, g1.snake.Head = some h1 ∧ ¬ onBoard h1.pos_) :
    g1.GameOver = false ∧
    ∀ (d2 : Direction) (samples2 : List Vector2i),
      tick g1 d2 samples2 = some { g1 with GameOver := true } := by
  obtain ⟨h, hhead, hon⟩ := hin
  obtain ⟨h1, hhead1, hoff⟩ := hout
  have hover : g1.GameOver = false := by
    simp only [tick, hrun, Bool.false_eq_true, if_false] at htick
    cases hchk : g.snake.CheckIntersects with
    | none => simp [hchk] at htick
    | some res =>
      cases res with
      | true =>
        simp only [hchk, Option.some.injEq] at htick
        subst htick
        simp only at hhead1
        rw [hhead] at hhead1
        exact absurd hon (by cases hhead1; exact hoff)
      | false =>
        simp only [hchk] at htick
        cases hmove : g.snake.Move d with
        | none => simp [hmove] at htick
        | some moved =>
          simp only [hmove] at htick
          split_ifs at htick
          · cases hfood : reset_food moved.Eat samples with
            | none => simp [hfood] at htick
            | some cell =>
              simp only [hfood, Option.some.injEq] at htick
              subst htick
              rfl
          · simp only [Option.some.injEq] at htick
            subst htick
            rfl
  refine ⟨hover, fun d2 samples2 => ?_⟩
  simp [tick, hover, Snake.CheckIntersects_off_board g1.snake h1 hhead1 hoff]

/-- C5 as stated fails: in `wallGame` (running, head at `(9,0)` on the board,
facing `RIGHT`) one tick with direction `NONE` puts the head at `(10,0)`, off
the board, and `GameOver` is still `false` at the end of that tick. -/
theorem tick_wall_same_tick_counterexample :
    wallGame.GameOver = false ∧
    wallGame.snake.GetPosition = some ⟨9, 0⟩ ∧ onBoard ⟨9, 0⟩ ∧
    (tick wallGame Direction.NONE []).map (fun g => (g.snake.GetPosition, g.GameOver)) =
      some (some ⟨10, 0⟩, false) ∧
    ¬ onBoard ⟨10, 0⟩ := by
  refine ⟨rfl, rfl, by decide, rfl, by decide⟩

/-! ## Concrete runs -/

/-- The `GameBegin` block turns the constructed chain into `openingSnake`. -/
theorem opening_eq (cell : Vector2i) (more : List Vector2i)
    (hfree : openingSnake.HasPosition cell = false) :
    opening (cell :: more) =
      some { snake := openingSnake, food := cell, delay := 1 / 2, GameOver := false } := by
  have hmove : (Snake.mk [Body.new ⟨2, 0⟩, Body.new ⟨1, 0⟩, Body.new ⟨0, 0⟩]
      (Body.new ⟨0, 0⟩) 0).Move Direction.RIGHT = some openingSnake := by decide
  simp only [opening, initialSnake, Snake.create, List.getLast?, List.getLast, hmove,
    reset_food, hfree, Bool.false_eq_true, if_false]

/-- The game `wallGame` is reached from the opening state by six ticks. -/
theorem wallGame_reachable :
    (opening [⟨0, 5⟩]).bind (fun g => ticks g (List.replicate 6 (Direction.NONE, []))) =
      some wallGame := by
  rw [opening_eq _ _ (by decide)]
  rfl

/-- Witness of C1: the opening chain faces `RIGHT`; `Move(UP)` turns the head
to `UP` and puts it at `(3,-1)`. -/
theorem Snake.Move_head_witness :
    ∃ s1 h1, openingSnake.Move Direction.UP = some s1 ∧ s1.Head = some h1 ∧
      h1.direction_ = Direction.UP ∧ h1.pos_ = ⟨3, -1⟩ := by
  obtain ⟨s1, h1, hmove, hhead, hdir, hpos, -⟩ :=
    Snake.Move_head openingSnake Direction.UP ⟨⟨3, 0⟩, Direction.RIGHT⟩ rfl
  have hup : h1.direction_ = Direction.UP := by
    rw [hdir]
    decide
  refine ⟨s1, h1, hmove, hhead, hup, ?_⟩
  rw [hpos, hup]
  rfl

/-- Witness of C2: on the opening chain (facing `RIGHT`) the reversal `LEFT`
and the request `NONE` give `NONE`, the turn `UP` passes through. -/
theorem Snake.CheckDirection_spec_witness :
    openingSnake.CheckDirection Direction.LEFT = some Direction.NONE ∧
    openingSnake.CheckDirection Direction.NONE = some Direction.NONE ∧
    openingSnake.CheckDirection Direction.UP = some Direction.UP :=
  ⟨(Snake.CheckDirection_spec openingSnake Direction.LEFT ⟨⟨3, 0⟩, Direction.RIGHT⟩ rfl).1
      (Or.inr (by decide)),
    (Snake.CheckDirection_spec openingSnake Direction.NONE ⟨⟨3, 0⟩, Direction.RIGHT⟩ rfl).2.1
      rfl,
    (Snake.CheckDirection_spec openingSnake Direction.UP ⟨⟨3, 0⟩, Direction.RIGHT⟩ rfl).2.2
      (by decide) (by decide)⟩

/-- Witness of C3: after `Move(UP)` on the opening chain the second segment is
at `(3,0)` and the third at `(2,0)`, both facing `RIGHT`. -/
theorem Snake.Move_trailing_witness :
    ∃ s1, openingSnake.Move Direction.UP = some s1 ∧
      s1.bodies[1]? = some ⟨⟨3, 0⟩, Direction.RIGHT⟩ ∧
      s1.bodies[2]? = some ⟨⟨2, 0⟩, Direction.RIGHT⟩ := by
  obtain ⟨s1, hmove, -, hseg⟩ :=
    Snake.Move_trailing openingSnake Direction.UP (by decide) (by decide)
  exact ⟨s1, hmove,
    hseg 0 ⟨⟨3, 0⟩, Direction.RIGHT⟩ ⟨⟨2, 0⟩, Direction.RIGHT⟩ rfl rfl,
    hseg 1 ⟨⟨2, 0⟩, Direction.RIGHT⟩ ⟨⟨1, 0⟩, Direction.RIGHT⟩ rfl rfl⟩

/-- Witness of C4: a chain with two segments on `(1,0)` is reported as
collided. -/
theorem Snake.CheckIntersects_iff_witness :
    overlappingSnake.CheckIntersects = some true := by
  obtain ⟨res, hres, hiff⟩ :=
    Snake.CheckIntersects_iff overlappingSnake ⟨⟨1, 0⟩, Direction.RIGHT⟩ rfl
  have htrue : res = true :=
    hiff.mpr (Or.inr ⟨0, 1, ⟨⟨1, 0⟩, Direction.RIGHT⟩, ⟨⟨1, 0⟩, Direction.RIGHT⟩,
      by decide, rfl, rfl, rfl⟩)
  rw [hres, htrue]

/-- Witness of C5 as amended: the tick that takes `wallGame` to `wallGameOff`
leaves `GameOver` unset, and the next tick sets it. -/
theorem tick_wall_detected_next_tick_witness :
    wallGameOff.GameOver = false ∧
    tick wallGameOff Direction.UP [] = some { wallGameOff with GameOver := true } :=
  have key := tick_wall_detected_next_tick wallGame wallGameOff Direction.NONE [] rfl
    ⟨⟨⟨9, 0⟩, Direction.RIGHT⟩, rfl, by decide⟩ rfl
    ⟨⟨⟨10, 0⟩, Direction.RIGHT⟩, rfl, by decide⟩
  ⟨key.1, key.2 Direction.UP []⟩

/-- Witness of C8: after `Move(UP)` and `Eat` on the opening chain the last
body is the old last body, at `(1,0)` facing `RIGHT`. -/
theorem Snake.Move_Eat_last_witness :
    ∃ s1, openingSnake.Move Direction.UP = some s1 ∧
      s1.Eat.bodies.getLast? = some ⟨⟨1, 0⟩, Direction.RIGHT⟩ := by
  obtain ⟨s1, last, hmove, hlast, -, hnew⟩ :=
    Snake.Move_Eat_last openingSnake Direction.UP (by decide)
  have hl : last = ⟨⟨1, 0⟩, Direction.RIGHT⟩ := by
    have h2 : openingSnake.bodies.getLast? = some ⟨⟨1, 0⟩, Direction.RIGHT⟩ := rfl
    rw [h2] at hlast
    exact (Option.some.inj hlast).symm
  exact ⟨s1, hmove, hl ▸ hnew⟩

/-- Witness of C9: three moves keep the opening chain at three segments, and
`Eat` makes four. -/
theorem Snake.Moves_length_Eat_frame_witness :
    (∃ s1, openingSnake.Moves [Direction.UP, Direction.LEFT, Direction.NONE] = some s1 ∧
      s1.bodies.length = 3) ∧
    openingSnake.Eat.bodies.length = 4 ∧
    openingSnake.Eat.bodies[2]? = openingSnake.bodies[2]? :=
  have key := Snake.Moves_length_Eat_frame openingSnake
    [Direction.UP, Direction.LEFT, Direction.NONE] (by decide)
  ⟨key.1, key.2.1, key.2.2 2 (by decide)⟩

/-! ## Terminal state (C11) -/

theorem ticks_finished (g : Game) (inputs : List (Direction × List Vector2i))
    (hover : g.GameOver = true) : ticks g inputs = some g := by
  induction inputs with
  | nil => rfl
  | cons input more ih =>
    obtain ⟨d, samples⟩ := input
    have htick : tick g d samples = some g := by simp [tick, hover]
    simp [ticks, htick, ih]

/-- C11. Once `GameOver` is set, any sequence of later ticks, with any pending
directions and samples, returns the same game: the flag stays set and the
chain, the food position, the score and `delay` are unchanged. -/
theorem ticks_GameOver (g : Game) (inputs : List (Direction × List Vector2i))
    (hover : g.GameOver = true) : ticks g inputs = some g :=
  ticks_finished g inputs hover

/-- Witness of C11: three more ticks on the finished game `wallGameOver`. -/
theorem ticks_GameOver_witness :
    ticks wallGameOver
      [(Direction.UP, []), (Direction.LEFT, [⟨4, 4⟩]), (Direction.NONE, [])] =
      some wallGameOver :=
  ticks_GameOver wallGameOver _ rfl

/-! ## Start-up of a fresh chain (C19) -/

theorem Snake.follow_fresh (d : Direction) (todo : List Body)
    (hall : ∀ b ∈ todo, b.direction_ = Direction.NONE) :
    Snake.follow d d todo = todo.map fun b => ⟨Body.shift b.pos_ d, d⟩ := by
  induction todo with
  | nil => rfl
  | cons b rest ih =>
    have hb : b.direction_ = Direction.NONE := hall b (List.mem_cons_self _ _)
    have hrest := ih fun x hx => hall x (List.mem_cons_of_mem _ hx)
    simp only [Snake.follow, hb, if_true, hrest, List.map_cons, Body.Move]
    cases d <;> simp

theorem Snake.Move_fresh_map (s : Snake) (d : Direction) (hne : s.bodies ≠ [])
    (hall : ∀ b ∈ s.bodies, b.direction_ = Direction.NONE) :
    ∃ s1, s.Move d = some s1 ∧
      s1.bodies = s.bodies.map fun b => ⟨Body.shift b.pos_ d, d⟩ := by
  rcases s with ⟨bodies, t, sc⟩
  cases bodies with
  | nil => exact absurd rfl hne
  | cons b0 rest =>
    obtain ⟨last, -, hmove⟩ := Snake.Move_cons b0 rest t sc d
    have h0 : b0.direction_ = Direction.NONE := hall b0 (List.mem_cons_self _ _)
    have hrest : ∀ x ∈ rest, x.direction_ = Direction.NONE :=
      fun x hx => hall x (List.mem_cons_of_mem _ hx)
    have he : (if d ≠ Direction.NONE ∧ d ≠ b0.direction_ ∧ ¬ Direction.Opposite d b0.direction_
        then d else b0.direction_) = d := by
      rw [h0]
      cases d <;> simp [Direction.Opposite]
    have hhead : (b0.Move d).1 = ⟨Body.shift b0.pos_ d, d⟩ := by
      simp only [Body.Move, h0]
      cases d <;> simp
    rw [he, Snake.moveLoop_cons, hhead] at hmove
    simp only [h0, if_true] at hmove
    rw [Snake.follow_fresh d rest hrest] at hmove
    exact ⟨_, hmove, by simp⟩

/-- C19. On a non-empty chain all of whose facings are `NONE`, `Move(d)` with
`d` not `NONE` returns the chain in which every segment has moved one grid
unit in direction `d` and faces `d`; `Move(NONE)` returns a chain with every
position and facing unchanged. -/
theorem Snake.Move_fresh (s : Snake) (d : Direction) (hne : s.bodies ≠ [])
    (hall : ∀ b ∈ s.bodies, b.direction_ = Direction.NONE) :
    (d ≠ Direction.NONE →
      ∃ s1, s.Move d = some s1 ∧
        s1.bodies = s.bodies.map fun b => ⟨Body.shift b.pos_ d, d⟩) ∧
    (∃ s1, s.Move Direction.NONE = some s1 ∧ s1.bodies = s.bodies) := by
  refine ⟨fun _ => Snake.Move_fresh_map s d hne hall, ?_⟩
  obtain ⟨s1, hmove, hbodies⟩ := Snake.Move_fresh_map s Direction.NONE hne hall
  refine ⟨s1, hmove, ?_⟩
  rw [hbodies]
  conv_rhs => rw [← List.map_id s.bodies]
  refine List.map_congr_left fun b hb => ?_
  have := hall b hb
  rcases b with ⟨p, dir⟩
  simp only at this
  subst this
  rfl

/-- Witness of C19: `(2,0),(1,0),(0,0)` with `Move(RIGHT)` becomes
`(3,0),(2,0),(1,0)`, all facing `RIGHT`, and `Move(NONE)` changes no body. -/
theorem Snake.Move_fresh_witness :
    (∃ s1, freshSnake.Move Direction.RIGHT = some s1 ∧
      s1.bodies = [⟨⟨3, 0⟩, Direction.RIGHT⟩, ⟨⟨2, 0⟩, Direction.RIGHT⟩,
        ⟨⟨1, 0⟩, Direction.RIGHT⟩]) ∧
    (∃ s1, freshSnake.Move Direction.NONE = some s1 ∧ s1.bodies = freshSnake.bodies) :=
  have key := Snake.Move_fresh freshSnake Direction.RIGHT (by decide) (by decide)
  ⟨key.1 (by decide), key.2⟩

/-! ## Construction (C15) -/

/-- C15, as the code has it.  The constructor does not validate the layout:
from the empty list no chain results (`back()` of an empty vector), and every
non-empty list is accepted as it is, whatever the positions - the chain holds
exactly the given bodies, `tail_` is the last of them and the score is 0. -/
theorem Snake.create_spec (bodies : List Body) :
    (bodies = [] → Snake.create bodies = none) ∧
    (bodies ≠ [] →
      ∃ last, bodies.getLast? = some last ∧
        Snake.create bodies = some { bodies := bodies, tail_ := last, score_ := 0 }) := by
  constructor
  · rintro rfl
    rfl
  · intro hne
    cases hlast : bodies.getLast? with
    | none => exact absurd (List.getLast?_eq_none_iff.mp hlast) hne
    | some last => exact ⟨last, rfl, by simp [Snake.create, hlast]⟩

/-- Witness of C15 as amended: the empty list gives no chain, the layout of
`main` gives a chain of three bodies. -/
theorem Snake.create_spec_witness :
    Snake.create [] = none ∧
    ∃ last, [Body.new ⟨2, 0⟩, Body.new ⟨1, 0⟩, Body.new ⟨0, 0⟩].getLast? = some last ∧
      Snake.create [Body.new ⟨2, 0⟩, Body.new ⟨1, 0⟩, Body.new ⟨0, 0⟩] =
        some { bodies := [Body.new ⟨2, 0⟩, Body.new ⟨1, 0⟩, Body.new ⟨0, 0⟩],
               tail_ := last, score_ := 0 } :=
  ⟨(Snake.create_spec []).1 rfl,
    (Snake.create_spec [Body.new ⟨2, 0⟩, Body.new ⟨1, 0⟩, Body.new ⟨0, 0⟩]).2 (by decide)⟩

/-- C15 as stated fails: a list with two bodies on the cell `(1,0)` is
accepted, and the chain is created with both of them. -/
theorem Snake.create_overlapping_counterexample :
    Snake.create [Body.new ⟨1, 0⟩, Body.new ⟨1, 0⟩] =
      some { bodies := [Body.new ⟨1, 0⟩, Body.new ⟨1, 0⟩], tail_ := Body.new ⟨1, 0⟩,
             score_ := 0 } := by
  rfl

/-! ## Food placement has no bound (C14) -/

theorem reset_food_all_occupied (snake : Snake) (pre : List Vector2i)
    (hocc : ∀ q ∈ pre, snake.HasPosition q = true) :
    reset_food snake pre = none ∧
    ∀ (cell : Vector2i) (post : List Vector2i), snake.HasPosition cell = false →
      reset_food snake (pre ++ cell :: post) = some cell := by
  induction pre with
  | nil =>
    refine ⟨rfl, fun cell post hfree => ?_⟩
    simp [reset_food, hfree]
  | cons c more ih =>
    have hc : snake.HasPosition c = true := hocc c (List.mem_cons_self _ _)
    obtain ⟨hnone, hsome⟩ := ih fun q hq => hocc q (List.mem_cons_of_mem _ hq)
    refine ⟨by simp [reset_food, hc, hnone], fun cell post hfree => ?_⟩
    simp [reset_food, hc, hsome cell post hfree]

/-- C14, as the code has it.  `reset_food` has no bound on its sampling
attempts and no failure result: after any number of samples that are all
occupied by the chain the loop is still running, and it returns only on the
first free sample, however late that comes. -/
theorem reset_food_unbounded (snake : Snake) (pre : List Vector2i)
    (hocc : ∀ q ∈ pre, snake.HasPosition q = true) :
    reset_food snake pre = none ∧
    ∀ (cell : Vector2i) (post : List Vector2i), snake.HasPosition cell = false →
      reset_food snake (pre ++ cell :: post) = some cell :=
  reset_food_all_occupied snake pre hocc

/-- Witness of C14 as amended: three samples on the opening chain, then a
free cell. -/
theorem reset_food_unbounded_witness :
    reset_food openingSnake [⟨3, 0⟩, ⟨2, 0⟩, ⟨1, 0⟩] = none ∧
    reset_food openingSnake ([⟨3, 0⟩, ⟨2, 0⟩, ⟨1, 0⟩] ++ [⟨5, 5⟩]) = some ⟨5, 5⟩ :=
  have key := reset_food_unbounded openingSnake [⟨3, 0⟩, ⟨2, 0⟩, ⟨1, 0⟩] (by decide)
  ⟨key.1, key.2 ⟨5, 5⟩ [] (by decide)⟩

/-- C14 as stated fails: on the opening chain, 200 samples (as many as the
board has cells) that all hit the head cell `(3,0)` leave the loop running
without any failure reported, and it goes on to return the 201st sample. -/
theorem reset_food_bound_counterexample :
    reset_food openingSnake (List.replicate 200 ⟨3, 0⟩) = none ∧
    reset_food openingSnake (List.replicate 200 ⟨3, 0⟩ ++ [⟨5, 5⟩]) = some ⟨5, 5⟩ := by
  have hocc : ∀ q ∈ List.replicate 200 (⟨3, 0⟩ : Vector2i), openingSnake.HasPosition q = true := by
    intro q hq
    rw [List.eq_of_mem_replicate hq]
    decide
  have key := reset_food_all_occupied openingSnake _ hocc
  exact ⟨key.1, key.2 ⟨5, 5⟩ [] (by decide)⟩

/-! ## Connected chains (C16, C17) -/

theorem Snake.linked_head (b : Body) (rest : List Body) (h : Snake.linked (b :: rest)) :
    b.direction_ ≠ Direction.NONE := by
  cases rest with
  | nil => exact h
  | cons c more => exact h.1

theorem Snake.linked_iff (l : List Body) :
    ((∀ b ∈ l, b.direction_ ≠ Direction.NONE) ∧
      ∀ (i : Nat) (a b : Body), l[i]? = some a → l[i + 1]? = some b →
        a.pos_ = Body.shift b.pos_ a.direction_) ↔ Snake.linked l := by
  induction l with
  | nil => simp [Snake.linked]
  | cons a rest ih =>
    cases rest with
    | nil => simp [Snake.linked]
    | cons b more =>
      simp only [Snake.linked]
      rw [← ih]
      constructor
      · rintro ⟨hall, hpair⟩
        exact ⟨hall a (List.mem_cons_self _ _), hpair 0 a b rfl (by simp),
          fun x hx => hall x (List.mem_cons_of_mem _ hx),
          fun i x y hx hy => hpair (i + 1) x y (by simpa using hx) (by simpa using hy)⟩
      · rintro ⟨ha, hab, hall, hpair⟩
        refine ⟨fun x hx => ?_, fun i x y hx hy => ?_⟩
        · rcases List.mem_cons.mp hx with rfl | hx
          · exact ha
          · exact hall x hx
        · cases i with
          | zero =>
            simp only [List.getElem?_cons_zero, List.getElem?_cons_succ, zero_add,
              Option.some.injEq] at hx hy
            subst hx hy
            exact hab
          | succ k =>
            exact hpair k x y (by simpa using hx) (by simpa using hy)

theorem Snake.connected_iff_linked (s : Snake) : s.Connected ↔ Snake.linked s.bodies :=
  Snake.linked_iff s.bodies

theorem Snake.linked_dropLast (l : List Body) (h : Snake.linked l) :
    Snake.linked l.dropLast := by
  induction l with
  | nil => exact h
  | cons a rest ih =>
    cases rest with
    | nil => trivial
    | cons b more =>
      have hrest : Snake.linked (b :: more).dropLast := ih h.2.2
      cases more with
      | nil => exact h.1
      | cons c more2 =>
        simp only [List.dropLast_cons₂] at hrest ⊢
        exact ⟨h.1, h.2.1, hrest⟩

theorem Snake.follow_linked (headDir : Direction) (prev : Body) (todo : List Body)
    (h : Snake.linked (prev :: todo)) :
    Snake.follow headDir prev.direction_ todo = (prev :: todo).dropLast := by
  induction todo generalizing prev with
  | nil => rfl
  | cons c rest ih =>
    obtain ⟨hprev, hpos, hrest⟩ := h
    have hc : c.direction_ ≠ Direction.NONE := Snake.linked_head c rest hrest
    have hmoved : (c.Move prev.direction_).1 = prev := by
      simp only [Body.Move, ne_eq, hprev, not_false_eq_true, if_true, ← hpos]
    simp only [Snake.follow, hmoved, if_neg hc, ih c hrest, List.dropLast_cons₂]

/-- What `Snake::Move` returns on a connected chain `b :: rest`: the new head
in front of the old bodies without the last one. -/
theorem Snake.Move_linked (b : Body) (rest : List Body) (t : Body) (sc : Int) (r : Direction)
    (h : Snake.linked (b :: rest)) :
    ∃ e last, e ≠ Direction.NONE ∧ (b :: rest).getLast? = some last ∧
      e = (if r ≠ Direction.NONE ∧ r ≠ b.direction_ ∧ ¬ Direction.Opposite r b.direction_
        then r else b.direction_) ∧
      Snake.Move ⟨b :: rest, t, sc⟩ r =
        some ⟨⟨Body.shift b.pos_ e, e⟩ :: (b :: rest).dropLast, last, sc⟩ := by
  obtain ⟨last, hlast, hmove⟩ := Snake.Move_cons b rest t sc r
  have hb : b.direction_ ≠ Direction.NONE := Snake.linked_head b rest h
  refine ⟨_, last, ?_, hlast, rfl, ?_⟩
  · split_ifs with hc
    · exact hc.1
    · exact hb
  · rw [hmove, Snake.moveLoop_cons]
    have hne : (if r ≠ Direction.NONE ∧ r ≠ b.direction_ ∧ ¬ Direction.Opposite r b.direction_
        then r else b.direction_) ≠ Direction.NONE := by
      split_ifs with hc
      · exact hc.1
      · exact hb
    have hhead : (b.Move (if r ≠ Direction.NONE ∧ r ≠ b.direction_ ∧
        ¬ Direction.Opposite r b.direction_ then r else b.direction_)).1 =
        ⟨Body.shift b.pos_ (if r ≠ Direction.NONE ∧ r ≠ b.direction_ ∧
          ¬ Direction.Opposite r b.direction_ then r else b.direction_),
         (if r ≠ Direction.NONE ∧ r ≠ b.direction_ ∧
          ¬ Direction.Opposite r b.direction_ then r else b.direction_)⟩ := by
      simp only [Body.Move, if_pos hne]
    rw [hhead]
    simp only [if_neg hb, Snake.follow_linked _ b rest h]

/-- C16. On a non-empty connected chain `Move` returns a chain whose list of
positions is the naive shift - the new head cell followed by the old positions
with the last one dropped; so each segment `i + 1` stands on the cell that
segment `i` occupied before the call. -/
theorem Snake.Move_naiveShift (s : Snake) (r : Direction) (hne : s.bodies ≠ [])
    (hconn : s.Connected) :
    ∃ s1 h1, s.Move r = some s1 ∧ s1.Head = some h1 ∧
      s1.bodies.map Body.pos_ = naiveShift h1.pos_ (s.bodies.map Body.pos_) ∧
      ∀ (i : Nat) (a : Body), s.bodies[i]? = some a → i + 1 < s.bodies.length →
        s1.bodies[i + 1]?.map Body.pos_ = some a.pos_ := by
  rw [Snake.connected_iff_linked] at hconn
  rcases s with ⟨bodies, t, sc⟩
  cases bodies with
  | nil => exact absurd rfl hne
  | cons b0 rest =>
    obtain ⟨e, last, -, -, -, hmove⟩ := Snake.Move_linked b0 rest t sc r hconn
    refine ⟨_, _, hmove, rfl, ?_, fun i a ha hi => ?_⟩
    · simp only [naiveShift, List.map_cons, List.map_dropLast]
    · have hi1 : i < (b0 :: rest).length - 1 := by
        simp only [List.length_cons] at hi ⊢
        omega
      simp only [List.getElem?_cons_succ, List.getElem?_dropLast, if_pos hi1] at ha ⊢
      rw [ha]
      rfl

/-- Witness of C16: after `Move(UP)` the opening chain `(3,0),(2,0),(1,0)`
stands on `(3,-1),(3,0),(2,0)`. -/
theorem Snake.Move_naiveShift_witness :
    ∃ s1, openingSnake.Move Direction.UP = some s1 ∧
      s1.bodies.map Body.pos_ = [⟨3, -1⟩, ⟨3, 0⟩, ⟨2, 0⟩] := by
  obtain ⟨s1, h1, hmove, hhead, hshift, -⟩ :=
    Snake.Move_naiveShift openingSnake Direction.UP (by decide)
      ((Snake.connected_iff_linked openingSnake).mpr (by decide))
  have hm : openingSnake.Move Direction.UP =
      some ⟨[⟨⟨3, -1⟩, Direction.UP⟩, ⟨⟨3, 0⟩, Direction.RIGHT⟩, ⟨⟨2, 0⟩, Direction.RIGHT⟩],
        ⟨⟨1, 0⟩, Direction.RIGHT⟩, 0⟩ := by decide
  rw [hm] at hmove
  cases hmove
  cases hhead
  exact ⟨_, hm, hshift⟩

/-- C17. The chain stays connected: the chain left by `Move(RIGHT)` on the
constructed chain `(2,0),(1,0),(0,0)` is connected, and on a non-empty
connected chain `Move` with any requested direction returns a connected chain
which is still connected after an `Eat` called right after that `Move`. -/
theorem Snake.Connected_preserved (s : Snake) (r : Direction) (hne : s.bodies ≠ [])
    (hconn : s.Connected) :
    (∃ s0 s1, initialSnake = some s0 ∧ s0.Move Direction.RIGHT = some s1 ∧ s1.Connected) ∧
    ∃ s1, s.Move r = some s1 ∧ s1.Connected ∧ s1.Eat.Connected := by
  constructor
  · refine ⟨⟨[Body.new ⟨2, 0⟩, Body.new ⟨1, 0⟩, Body.new ⟨0, 0⟩], Body.new ⟨0, 0⟩, 0⟩,
      openingSnake, rfl, by decide, ?_⟩
    exact (Snake.connected_iff_linked openingSnake).mpr (by decide)
  · rw [Snake.connected_iff_linked] at hconn
    rcases s with ⟨bodies, t, sc⟩
    cases bodies with
    | nil => exact absurd rfl hne
    | cons b0 rest =>
      obtain ⟨e, last, he, hlast, -, hmove⟩ := Snake.Move_linked b0 rest t sc r hconn
      refine ⟨_, hmove, ?_, ?_⟩
      · rw [Snake.connected_iff_linked]
        have hdrop := Snake.linked_dropLast (b0 :: rest) hconn
        cases rest with
        | nil => exact he
        | cons c more =>
          simp only [List.dropLast_cons₂] at hdrop ⊢
          exact ⟨he, rfl, hdrop⟩
      · rw [Snake.connected_iff_linked]
        have hback : (b0 :: rest).dropLast ++ [last] = b0 :: rest :=
          List.dropLast_append_getLast? last hlast
        simp only [Snake.Eat, List.cons_append, hback]
        exact ⟨he, rfl, hconn⟩

/-- Witness of C17: `Move(UP)` on the connected opening chain, then `Eat`. -/
theorem Snake.Connected_preserved_witness :
    ∃ s1, openingSnake.Move Direction.UP = some s1 ∧ s1.Connected ∧ s1.Eat.Connected :=
  (Snake.Connected_preserved openingSnake Direction.UP (by decide)
    ((Snake.connected_iff_linked openingSnake).mpr (by decide))).2

/-! ## Invariants of a run -/

theorem Snake.HasPosition_eq_false_iff (s : Snake) (p : Vector2i) :
    s.HasPosition p = false ↔ ∀ b ∈ s.bodies, b.pos_ ≠ p := by
  unfold Snake.HasPosition
  induction s.bodies with
  | nil => simp [Snake.hasPositionLoop]
  | cons b rest ih =>
    by_cases hb : b.pos_ = p
    · simp [Snake.hasPositionLoop, hb]
    · simp [Snake.hasPositionLoop, hb, ih]

theorem Snake.HasPosition_eq_true_iff (s : Snake) (p : Vector2i) :
    s.HasPosition p = true ↔ ∃ b ∈ s.bodies, b.pos_ = p := by
  constructor
  · intro h
    by_contra hcon
    push_neg at hcon
    rw [(Snake.HasPosition_eq_false_iff s p).mpr hcon] at h
    exact absurd h (by simp)
  · rintro ⟨b, hb, hbp⟩
    by_contra hcon
    have hfalse : s.HasPosition p = false := by simpa using hcon
    exact (Snake.HasPosition_eq_false_iff s p).mp hfalse b hb hbp

theorem Snake.CheckIntersects_false_onBoard (s : Snake) (h : Body) (hhead : s.Head = some h)
    (hchk : s.CheckIntersects = some false) : onBoard h.pos_ := by
  by_contra hout
  rw [Snake.CheckIntersects_off_board s h hhead hout] at hchk
  exact absurd hchk (by simp)

theorem nearBoard_shift (p : Vector2i) (d : Direction) (hp : onBoard p) :
    nearBoard (Body.shift p d) := by
  unfold onBoard M N at hp
  unfold nearBoard onBoard M N
  cases d <;> simp only [Body.shift] <;> omega

/-- The possible outcomes of one tick. -/
theorem tick_cases (g g1 : Game) (d : Direction) (samples : List Vector2i)
    (htick : tick g d samples = some g1) :
    (g.GameOver = true ∧ g1 = g) ∨
    (g.GameOver = false ∧ g.snake.CheckIntersects = some true ∧
      g1 = { g with GameOver := true }) ∨
    (g.GameOver = false ∧ g.snake.CheckIntersects = some false ∧
      ∃ moved, g.snake.Move d = some moved ∧
        ((moved.GetPosition = some g.food ∧
            ∃ cell, reset_food moved.Eat samples = some cell ∧
              g1 = { g with snake := moved.Eat, delay := delayStep g.delay, food := cell }) ∨
          (moved.GetPosition ≠ some g.food ∧ g1 = { g with snake := moved }))) := by
  cases hover : g.GameOver with
  | true =>
    left
    simp only [tick, hover, if_true, Option.some.injEq] at htick
    exact ⟨rfl, htick.symm⟩
  | false =>
    right
    cases hchk : g.snake.CheckIntersects with
    | none => simp [tick, hover, hchk] at htick
    | some res =>
      cases res with
      | true =>
        left
        simp only [tick, hover, hchk, Bool.false_eq_true, if_false, Option.some.injEq] at htick
        exact ⟨rfl, rfl, by rw [← htick]⟩
      | false =>
        right
        cases hmove : g.snake.Move d with
        | none => simp [tick, hover, hchk, hmove] at htick
        | some moved =>
          rw [tick_running g d samples moved hover hchk hmove] at htick
          refine ⟨rfl, rfl, moved, rfl, ?_⟩
          by_cases hfood : moved.GetPosition = some g.food
          · left
            rw [if_pos hfood] at htick
            cases hcell : reset_food moved.Eat samples with
            | none => simp [hcell] at htick
            | some cell =>
              simp only [hcell, Option.map, Option.some.injEq, hover] at htick
              exact ⟨hfood, cell, rfl, htick.symm⟩
          · right
            rw [if_neg hfood, Option.some.injEq, hover] at htick
            exact ⟨hfood, htick.symm⟩

theorem ticks_invariant (P : Game → Prop)
    (hstep : ∀ (g g1 : Game) (d : Direction) (samples : List Vector2i),
      P g → tick g d samples = some g1 → P g1)
    (g0 g : Game) (inputs : List (Direction × List Vector2i))
    (h0 : P g0) (hrun : ticks g0 inputs = some g) : P g := by
  induction inputs generalizing g0 with
  | nil =>
    simp only [ticks, Option.some.injEq] at hrun
    exact hrun ▸ h0
  | cons input more ih =>
    obtain ⟨d, samples⟩ := input
    cases htick : tick g0 d samples with
    | none => simp [ticks, htick] at hrun
    | some g1 =>
      simp only [ticks, htick] at hrun
      exact ih g1 (hstep g0 g1 d samples h0 htick) hrun

theorem opening_some (samples : List Vector2i) (g0 : Game) (hopen : opening samples = some g0) :
    g0.snake = openingSnake ∧ g0.GameOver = false ∧ g0.delay = 1 / 2 ∧
      openingSnake.HasPosition g0.food = false := by
  have hmove : (Snake.mk [Body.new ⟨2, 0⟩, Body.new ⟨1, 0⟩, Body.new ⟨0, 0⟩]
      (Body.new ⟨0, 0⟩) 0).Move Direction.RIGHT = some openingSnake := by decide
  simp only [opening, initialSnake, Snake.create, List.getLast?, List.getLast, hmove] at hopen
  cases hcell : reset_food openingSnake samples with
  | none => simp [hcell] at hopen
  | some cell =>
    simp only [hcell, Option.some.injEq] at hopen
    obtain ⟨-, -, -, -, hfree⟩ := (reset_food_first_free _ _ _).mp hcell
    subst hopen
    exact ⟨rfl, rfl, rfl, hfree⟩

theorem Game.sound_opening (samples : List Vector2i) (g0 : Game)
    (hopen : opening samples = some g0) : g0.Sound := by
  obtain ⟨hsnake, -, hdelay, hfree⟩ := opening_some samples g0 hopen
  unfold Game.Sound
  rw [hsnake, hdelay]
  exact ⟨by decide, by decide, by decide, ⟨⟨⟨3, 0⟩, Direction.RIGHT⟩, rfl, by decide⟩,
    hfree, by decide, rfl⟩

/-- The chain left by `Move` on a connected chain, with and without `Eat`,
keeps the chain part of the invariant. -/
theorem Snake.moved_sound (b0 : Body) (rest : List Body) (e : Direction)
    (he : e ≠ Direction.NONE) (hlinked : Snake.linked (b0 :: rest))
    (hhead : onBoard b0.pos_) (htail : ∀ b ∈ rest, onBoard b.pos_) :
    Snake.linked (⟨Body.shift b0.pos_ e, e⟩ :: (b0 :: rest).dropLast) ∧
    Snake.linked (⟨Body.shift b0.pos_ e, e⟩ :: b0 :: rest) ∧
    (∀ b ∈ (b0 :: rest).dropLast, onBoard b.pos_) ∧
    (∀ b ∈ b0 :: rest, onBoard b.pos_) ∧
    nearBoard (Body.shift b0.pos_ e) := by
  have hall : ∀ b ∈ b0 :: rest, onBoard b.pos_ := by
    intro b hb
    rcases List.mem_cons.mp hb with rfl | hb
    · exact hhead
    · exact htail b hb
  refine ⟨?_, ⟨he, rfl, hlinked⟩, fun b hb => hall b (List.mem_of_mem_dropLast hb), hall,
    nearBoard_shift _ _ hhead⟩
  have hdrop := Snake.linked_dropLast (b0 :: rest) hlinked
  cases rest with
  | nil => exact he
  | cons c more =>
    simp only [List.dropLast_cons₂] at hdrop ⊢
    exact ⟨he, rfl, hdrop⟩

theorem Game.sound_tick (g g1 : Game) (d : Direction) (samples : List Vector2i)
    (hsound : g.Sound) (htick : tick g d samples = some g1) : g1.Sound := by
  rcases tick_cases g g1 d samples htick with ⟨-, rfl⟩ | ⟨-, -, rfl⟩ | ⟨-, hchk, moved, hmove, hcase⟩
  · exact hsound
  · exact hsound
  · obtain ⟨hne, hlinked, htail, -, hfood, hscore, hdelay⟩ := hsound
    rcases g with ⟨⟨bodies, t, sc⟩, food, delay, over⟩
    cases bodies with
    | nil => exact absurd rfl hne
    | cons b0 rest =>
      simp only at hlinked htail hfood hscore hdelay hchk hmove hcase
      have hhead : onBoard b0.pos_ :=
        Snake.CheckIntersects_false_onBoard ⟨b0 :: rest, t, sc⟩ b0 rfl hchk
      obtain ⟨e, last, he, hlast, -, hmoved⟩ := Snake.Move_linked b0 rest t sc d hlinked
      rw [hmoved, Option.some.injEq] at hmove
      subst hmove
      obtain ⟨hl1, hl2, hb1, hb2, hnear⟩ :=
        Snake.moved_sound b0 rest e he hlinked hhead (by simpa using htail)
      have hfree : ∀ b ∈ b0 :: rest, b.pos_ ≠ food :=
        (Snake.HasPosition_eq_false_iff ⟨b0 :: rest, t, sc⟩ food).mp hfood
      rcases hcase with ⟨-, cell, hcell, rfl⟩ | ⟨hnot, rfl⟩
      · obtain ⟨-, -, -, -, hcellfree⟩ := (reset_food_first_free _ _ _).mp hcell
        have hback : (b0 :: rest).dropLast ++ [last] = b0 :: rest :=
          List.dropLast_append_getLast? last hlast
        refine ⟨by simp [Snake.Eat], ?_, ?_, ⟨_, rfl, hnear⟩, hcellfree, ?_, ?_⟩
        · simpa only [Snake.Eat, List.cons_append, hback] using hl2
        · simpa only [Snake.Eat, List.cons_append, hback, List.tail_cons] using hb2
        · simp only [Snake.Eat]
          omega
        · obtain ⟨n, rfl⟩ := Int.eq_ofNat_of_zero_le hscore
          simp only [Snake.Eat, hdelay]
          rfl
      · refine ⟨by simp, hl1, by simpa using hb1, ⟨_, rfl, hnear⟩, ?_, hscore, hdelay⟩
        rw [Snake.HasPosition_eq_false_iff]
        intro b hb
        rcases List.mem_cons.mp hb with rfl | hb
        · intro hpos
          exact hnot (by simpa [Snake.GetPosition, Snake.Head] using hpos)
        · exact hfree b (List.mem_of_mem_dropLast hb)

theorem Game.sound_run (samples0 : List Vector2i) (inputs : List (Direction × List Vector2i))
    (g0 g : Game) (hopen : opening samples0 = some g0) (hrun : ticks g0 inputs = some g) :
    g.Sound :=
  ticks_invariant Game.Sound (fun a b d smp ha hb => Game.sound_tick a b d smp ha hb)
    g0 g inputs (Game.sound_opening samples0 g0 hopen) hrun

theorem ticks_off_board (g : Game) (h : Body) (hhead : g.snake.Head = some h)
    (hout : ¬ onBoard h.pos_) (more : List (Direction × List Vector2i)) :
    ∃ g2, ticks g more = some g2 ∧ g2.snake = g.snake := by
  cases more with
  | nil => exact ⟨g, rfl, rfl⟩
  | cons input rest =>
    obtain ⟨d, samples⟩ := input
    cases hover : g.GameOver with
    | true => exact ⟨g, ticks_finished g _ hover, rfl⟩
    | false =>
      have htick : tick g d samples = some { g with GameOver := true } := by
        simp [tick, hover, Snake.CheckIntersects_off_board g.snake h hhead hout]
      refine ⟨{ g with GameOver := true }, ?_, rfl⟩
      simp only [ticks, htick]
      exact ticks_finished _ rest rfl

theorem openingGame_run (cell : Vector2i) (hfree : openingSnake.HasPosition cell = false) :
    opening [cell] = some (openingGame cell) :=
  opening_eq cell [] hfree

/-! ## Board containment (C12) -/

/-- C12. In every game reached from the opening state by ticks, with any
pending directions and samples, every segment behind the head is on the
board, the head is on the board or exactly one cell outside it, and a chain
whose head is off the board is the same after any further ticks. -/
theorem board_containment (samples0 : List Vector2i)
    (inputs : List (Direction × List Vector2i)) (g0 g : Game)
    (hopen : opening samples0 = some g0) (hrun : ticks g0 inputs = some g) :
    (∀ (i : Nat) (b : Body), 1 ≤ i → g.snake.bodies[i]? = some b → onBoard b.pos_) ∧
    (∃ h, g.snake.Head = some h ∧ nearBoard h.pos_) ∧
    (∀ h, g.snake.Head = some h → ¬ onBoard h.pos_ →
      ∀ more, ∃ g2, ticks g more = some g2 ∧ g2.snake = g.snake) := by
  obtain ⟨-, -, htail, hnear, -⟩ := Game.sound_run samples0 inputs g0 g hopen hrun
  refine ⟨fun i b hi hb => ?_, hnear, fun h hhead hout more => ticks_off_board g h hhead hout more⟩
  apply htail b
  obtain ⟨k, rfl⟩ : ∃ k, i = k + 1 := ⟨i - 1, by omega⟩
  cases hbodies : g.snake.bodies with
  | nil => simp [hbodies] at hb
  | cons b0 rest =>
    rw [hbodies, List.getElem?_cons_succ] at hb
    exact List.getElem?_mem hb

/-- Witness of C12: `wallGameOff`, reached from the opening by seven ticks,
has its head at `(10,0)`, one cell off the board. -/
theorem board_containment_witness :
    (∀ (i : Nat) (b : Body), 1 ≤ i → wallGameOff.snake.bodies[i]? = some b →
      onBoard b.pos_) ∧
    (∃ h, wallGameOff.snake.Head = some h ∧ nearBoard h.pos_) ∧
    (∀ h, wallGameOff.snake.Head = some h → ¬ onBoard h.pos_ →
      ∀ more, ∃ g2, ticks wallGameOff more = some g2 ∧ g2.snake = wallGameOff.snake) :=
  board_containment [⟨0, 5⟩] (List.replicate 7 (Direction.NONE, [])) (openingGame ⟨0, 5⟩)
    wallGameOff (openingGame_run ⟨0, 5⟩ (by decide)) rfl

/-! ## Food and chain (C18) -/

/-- C18. In every game reached from the opening state by ticks (each of which
returned), no segment of the chain is on the food cell; hence whenever a
`Move` from such a game puts the head on the food cell, the body that `Eat`
then appends is not on the head's cell. -/
theorem food_never_under_snake (samples0 : List Vector2i)
    (inputs : List (Direction × List Vector2i)) (g0 g : Game)
    (hopen : opening samples0 = some g0) (hrun : ticks g0 inputs = some g) :
    g.snake.HasPosition g.food = false ∧
    ∀ (d : Direction) (moved : Snake), g.snake.Move d = some moved →
      moved.GetPosition = some g.food →
      ∃ t, moved.Eat.bodies.getLast? = some t ∧ moved.Eat.GetPosition = some g.food ∧
        t.pos_ ≠ g.food := by
  obtain ⟨hne, -, -, -, hfood, -⟩ := Game.sound_run samples0 inputs g0 g hopen hrun
  refine ⟨hfood, fun d moved hmove hhead => ?_⟩
  obtain ⟨s1, last, hmove1, hlast, htail, -, hlen⟩ := Snake.Move_length g.snake d hne
  rw [hmove, Option.some.injEq] at hmove1
  subst hmove1
  refine ⟨moved.tail_, by simp [Snake.Eat], ?_, ?_⟩
  · cases hb : moved.bodies with
    | nil => simp [Snake.GetPosition, Snake.Head, hb] at hhead
    | cons b rest =>
      simpa [Snake.GetPosition, Snake.Head, Snake.Eat, hb] using hhead
  · rw [htail]
    exact (Snake.HasPosition_eq_false_iff g.snake g.food).mp hfood last
      (List.mem_of_getLast?_eq_some hlast)

/-- Witness of C18: `foodGame` is reached from the opening by one tick; its
food cell `(5,0)` is free. -/
theorem food_never_under_snake_witness :
    foodGame.snake.HasPosition foodGame.food = false ∧
    ∀ (d : Direction) (moved : Snake), foodGame.snake.Move d = some moved →
      moved.GetPosition = some foodGame.food →
      ∃ t, moved.Eat.bodies.getLast? = some t ∧ moved.Eat.GetPosition = some foodGame.food ∧
        t.pos_ ≠ foodGame.food :=
  food_never_under_snake [⟨5, 0⟩] [(Direction.NONE, [])] (openingGame ⟨5, 0⟩) foodGame
    (openingGame_run ⟨5, 0⟩ (by decide)) rfl

/-! ## Floating point lemmas -/

theorem pow2_pos (e : Int) : 0 < pow2 e := by
  unfold pow2
  split_ifs <;> positivity

theorem roundNearestEven_nonpos (p : Nat) (emin : Int) (q : ℚ) (hq : q ≤ 0) :
    roundNearestEven p emin q ≤ 0 := by
  by_cases h0 : q = 0
  · simp [roundNearestEven, h0]
  · have hlt : q < 0 := lt_of_le_of_ne hq h0
    simp only [roundNearestEven, if_neg h0, if_pos hlt]
    have hulp := pow2_pos (max (binade (-q)) emin - (p : Int) + 1)
    have hm : q / pow2 (max (binade (-q)) emin - (p : Int) + 1) < 0 :=
      div_neg_of_neg_of_pos hlt hulp
    have hf : Rat.floor (q / pow2 (max (binade (-q)) emin - (p : Int) + 1)) < 0 := by
      by_contra hcon
      have h1 : (0 : Int) ≤ Rat.floor (q / pow2 (max (binade (-q)) emin - (p : Int) + 1)) := by
        omega
      have h2 := Rat.le_floor.mp h1
      simp only [Int.cast_zero] at h2
      exact absurd hm (not_lt.mpr h2)
    apply mul_nonpos_of_nonpos_of_nonneg _ hulp.le
    split_ifs
    · exact_mod_cast hf.le
    · have : Rat.floor (q / pow2 (max (binade (-q)) emin - (p : Int) + 1)) + 1 ≤ 0 := by omega
      exact_mod_cast this
    · exact_mod_cast hf.le
    · have : Rat.floor (q / pow2 (max (binade (-q)) emin - (p : Int) + 1)) + 1 ≤ 0 := by omega
      exact_mod_cast this

theorem toDouble_hundredth : toDouble (1 / 100) = 5764607523034235 / 576460752303423488 := by
  decide!

theorem delayStep_nonpos (x : ℚ) (hx : x ≤ 0) : delayStep x ≤ 0 := by
  unfold delayStep toFloat toDouble
  apply roundNearestEven_nonpos
  apply roundNearestEven_nonpos
  have := toDouble_hundredth
  unfold toDouble at this
  rw [this]
  have : (0 : ℚ) < 5764607523034235 / 576460752303423488 := by norm_num
  linarith

theorem delayAfter_pos : ∀ k, k ≤ 50 → 0 < delayAfter k := by
  decide!

theorem delayAfter_51 : delayAfter 51 = -5368611 / 536870912 := by decide!

theorem delayAfter_nonpos (k : Nat) (hk : 51 ≤ k) : delayAfter k ≤ 0 := by
  induction k with
  | zero => omega
  | succ n ih =>
    by_cases hn : 51 ≤ n
    · exact delayStep_nonpos _ (ih hn)
    · have : n + 1 = 51 := by omega
      rw [this, delayAfter_51]
      norm_num

theorem delayAfter_pos_iff (k : Nat) : 0 < delayAfter k ↔ k ≤ 50 := by
  constructor
  · intro hpos
    by_contra hk
    exact absurd hpos (not_lt.mpr (delayAfter_nonpos k (by omega)))
  · exact delayAfter_pos k


theorem pow2_eq_zpow (e : Int) : pow2 e = (2 : ℚ) ^ e := by
  unfold pow2
  split_ifs with h
  · obtain ⟨n, rfl⟩ := Int.eq_ofNat_of_zero_le h
    simp
  · obtain ⟨n, hn⟩ := Int.eq_ofNat_of_zero_le (show 0 ≤ -e by omega)
    have he : e = -(n : Int) := by omega
    subst he
    simp

theorem bitLog_spec (fuel n : Nat) (h1 : 1 ≤ n) (hfuel : n ≤ fuel) :
    2 ^ bitLog fuel n ≤ n ∧ n < 2 ^ (bitLog fuel n + 1) := by
  induction fuel generalizing n with
  | zero => omega
  | succ k ih =>
    unfold bitLog
    by_cases h2 : n < 2
    · simp only [if_pos h2]
      omega
    · simp only [if_neg h2]
      obtain ⟨hlo, hhi⟩ := ih (n / 2) (by omega) (by omega)
      rw [pow_succ, pow_succ]
      rw [pow_succ] at hhi
      constructor <;> omega

theorem two_zpow_natCast (k : Nat) : (2 : ℚ) ^ (k : Int) = ((2 ^ k : Nat) : ℚ) := by
  rw [zpow_natCast]
  push_cast
  rfl

theorem binade_spec (a : ℚ) (ha : 0 < a) :
    pow2 (binade a) ≤ a ∧ a < pow2 (binade a + 1) := by
  have hnum : 0 < a.num := Rat.num_pos.mpr ha
  obtain ⟨n, hn⟩ := Int.eq_ofNat_of_zero_le hnum.le
  have hn1 : 1 ≤ n := by omega
  have hd1 : 1 ≤ a.den := a.den_pos
  obtain ⟨hnlo, hnhi⟩ := bitLog_spec n n hn1 le_rfl
  obtain ⟨hdlo, hdhi⟩ := bitLog_spec a.den a.den hd1 le_rfl
  have hnat : a.num.natAbs = n := by simp [hn]
  have hmul : a * (a.den : ℚ) = (n : ℚ) := by
    have := Rat.mul_den_eq_num a
    rw [hn] at this
    exact_mod_cast this
  have hdpos : (0 : ℚ) < (a.den : ℚ) := by exact_mod_cast hd1
  have two_ne : (2 : ℚ) ≠ 0 := by norm_num
  have hn_lo : (2 : ℚ) ^ (bitLog n n : Int) ≤ (n : ℚ) := by
    rw [two_zpow_natCast]
    exact_mod_cast hnlo
  have hn_hi : (n : ℚ) < (2 : ℚ) ^ ((bitLog n n : Int) + 1) := by
    have h := two_zpow_natCast (bitLog n n + 1)
    push_cast at h
    rw [h]
    exact_mod_cast hnhi
  have hd_lo : (2 : ℚ) ^ (bitLog a.den a.den : Int) ≤ (a.den : ℚ) := by
    rw [two_zpow_natCast]
    exact_mod_cast hdlo
  have hd_hi : (a.den : ℚ) < (2 : ℚ) ^ ((bitLog a.den a.den : Int) + 1) := by
    have h := two_zpow_natCast (bitLog a.den a.den + 1)
    push_cast at h
    rw [h]
    exact_mod_cast hdhi
  have hupper : a < pow2 ((bitLog n n : Int) - (bitLog a.den a.den : Int) + 1) := by
    rw [pow2_eq_zpow]
    have h3 : (2 : ℚ) ^ ((bitLog n n : Int) - (bitLog a.den a.den : Int) + 1) *
        (2 : ℚ) ^ (bitLog a.den a.den : Int) = (2 : ℚ) ^ ((bitLog n n : Int) + 1) := by
      rw [← zpow_add₀ two_ne]
      congr 1
      ring
    have hpos : (0 : ℚ) < (2 : ℚ) ^ ((bitLog n n : Int) - (bitLog a.den a.den : Int) + 1) := by
      positivity
    have : a * (a.den : ℚ) <
        (2 : ℚ) ^ ((bitLog n n : Int) - (bitLog a.den a.den : Int) + 1) * (a.den : ℚ) := by
      calc a * (a.den : ℚ) = (n : ℚ) := hmul
        _ < (2 : ℚ) ^ ((bitLog n n : Int) + 1) := hn_hi
        _ = (2 : ℚ) ^ ((bitLog n n : Int) - (bitLog a.den a.den : Int) + 1) *
            (2 : ℚ) ^ (bitLog a.den a.den : Int) := h3.symm
        _ ≤ (2 : ℚ) ^ ((bitLog n n : Int) - (bitLog a.den a.den : Int) + 1) * (a.den : ℚ) :=
            mul_le_mul_of_nonneg_left hd_lo hpos.le
    exact lt_of_mul_lt_mul_right this hdpos.le
  have hlower : pow2 ((bitLog n n : Int) - (bitLog a.den a.den : Int) - 1) ≤ a := by
    rw [pow2_eq_zpow]
    have h3 : (2 : ℚ) ^ ((bitLog n n : Int) - (bitLog a.den a.den : Int) - 1) *
        (2 : ℚ) ^ ((bitLog a.den a.den : Int) + 1) = (2 : ℚ) ^ (bitLog n n : Int) := by
      rw [← zpow_add₀ two_ne]
      congr 1
      ring
    have hpos : (0 : ℚ) < (2 : ℚ) ^ ((bitLog n n : Int) - (bitLog a.den a.den : Int) - 1) := by
      positivity
    have : (2 : ℚ) ^ ((bitLog n n : Int) - (bitLog a.den a.den : Int) - 1) * (a.den : ℚ) ≤
        a * (a.den : ℚ) := by
      calc (2 : ℚ) ^ ((bitLog n n : Int) - (bitLog a.den a.den : Int) - 1) * (a.den : ℚ)
          ≤ (2 : ℚ) ^ ((bitLog n n : Int) - (bitLog a.den a.den : Int) - 1) *
            (2 : ℚ) ^ ((bitLog a.den a.den : Int) + 1) :=
            mul_le_mul_of_nonneg_left hd_hi.le hpos.le
        _ = (2 : ℚ) ^ (bitLog n n : Int) := h3
        _ ≤ (n : ℚ) := hn_lo
        _ = a * (a.den : ℚ) := hmul.symm
    exact le_of_mul_le_mul_right this hdpos
  unfold binade
  simp only [hnat]
  split_ifs with hc
  · exact ⟨hc, hupper⟩
  · refine ⟨hlower, ?_⟩
    have : (bitLog n n : Int) - (bitLog a.den a.den : Int) - 1 + 1 =
        (bitLog n n : Int) - (bitLog a.den a.den : Int) := by ring
    rw [this]
    exact lt_of_not_le hc

theorem roundNearestEven_error (p : Nat) (emin : Int) (q : ℚ) (hq : q ≠ 0) :
    ∃ n : Int,
      roundNearestEven p emin q =
        (n : ℚ) * pow2 (max (binade (if q < 0 then -q else q)) emin - (p : Int) + 1) ∧
      |roundNearestEven p emin q - q| ≤
        pow2 (max (binade (if q < 0 then -q else q)) emin - (p : Int) + 1) / 2 := by
  have hulp := pow2_pos (max (binade (if q < 0 then -q else q)) emin - (p : Int) + 1)
  simp only [roundNearestEven, if_neg hq]
  generalize pow2 (max (binade (if q < 0 then -q else q)) emin - (p : Int) + 1) = ulp at hulp ⊢
  have hfloor : Rat.floor (q / ulp) = ⌊q / ulp⌋ := rfl
  have hlo : ((Rat.floor (q / ulp) : Int) : ℚ) ≤ q / ulp := by
    rw [hfloor]
    exact Int.floor_le _
  have hhi : q / ulp < ((Rat.floor (q / ulp) : Int) : ℚ) + 1 := by
    rw [hfloor]
    exact Int.lt_floor_add_one _
  have hq_eq : q = q / ulp * ulp := by field_simp
  generalize Rat.floor (q / ulp) = f at hlo hhi ⊢
  generalize q / ulp = m at hlo hhi hq_eq ⊢
  refine ⟨_, rfl, ?_⟩
  have key : ∀ n : Int, |(n : ℚ) - m| ≤ 1 / 2 → |(n : ℚ) * ulp - q| ≤ ulp / 2 := by
    intro n hn
    have : (n : ℚ) * ulp - q = ((n : ℚ) - m) * ulp := by rw [hq_eq]; ring
    rw [this, abs_mul, abs_of_pos hulp]
    calc |(n : ℚ) - m| * ulp ≤ 1 / 2 * ulp := mul_le_mul_of_nonneg_right hn hulp.le
      _ = ulp / 2 := by ring
  apply key
  split_ifs with h1 h2 h3
  · rw [abs_le]
    constructor <;> linarith
  · rw [abs_le]
    push_cast
    constructor <;> linarith
  · rw [abs_le]
    constructor <;> linarith
  · rw [abs_le]
    push_cast
    constructor <;> linarith

theorem delayStep_half : delayStep (1 / 2) = 2055209 / 4194304 := by
  decide!

theorem delayAfter_50 : delayAfter 50 = 12829327 / 70368744177664 := by
  decide!

/-! ## The tick interval (C13) -/

/-- C13, as the code has it.  There is no floor: after `k` food consumptions
the tick interval is the `float` left by `k` executions of `delay -= 0.01` on
0.5; it is strictly positive exactly when `k ≤ 50` (after 50 it is
12829327/2^46, about 1.8e-7, after 51 it is -5368611/2^29, about -0.01); and
in every game reached from the opening state by ticks the score `k` is not
negative and `delay` is that value. -/
theorem delay_no_floor (k : Nat) (samples0 : List Vector2i)
    (inputs : List (Direction × List Vector2i)) (g0 g : Game)
    (hopen : opening samples0 = some g0) (hrun : ticks g0 inputs = some g) :
    (0 < delayAfter k ↔ k ≤ 50) ∧
    delayAfter 50 = 12829327 / 70368744177664 ∧ delayAfter 51 = -5368611 / 536870912 ∧
    0 ≤ g.snake.GetScore ∧ g.delay = delayAfter g.snake.GetScore.toNat := by
  obtain ⟨-, -, -, -, -, hscore, hdelay⟩ := Game.sound_run samples0 inputs g0 g hopen hrun
  exact ⟨delayAfter_pos_iff k, delayAfter_50, delayAfter_51, hscore, hdelay⟩

/-- Witness of C13 as amended: `fedGame`, reached from the opening by two
ticks, has eaten once and its `delay` is `delayAfter 1`. -/
theorem delay_no_floor_witness :
    (0 < delayAfter 51 ↔ 51 ≤ 50) ∧
    delayAfter 50 = 12829327 / 70368744177664 ∧ delayAfter 51 = -5368611 / 536870912 ∧
    0 ≤ fedGame.snake.GetScore ∧ fedGame.delay = delayAfter fedGame.snake.GetScore.toNat :=
  delay_no_floor 51 [⟨5, 0⟩] [(Direction.NONE, []), (Direction.NONE, [⟨7, 7⟩])]
    (openingGame ⟨5, 0⟩) fedGame (openingGame_run ⟨5, 0⟩ (by decide)) rfl

/-! ## Runs of eating ticks -/

theorem Snake.CheckIntersects_of_nodup (s : Snake) (h : Body) (hhead : s.Head = some h)
    (hon : onBoard h.pos_) (hnodup : (s.bodies.map Body.pos_).Nodup) :
    s.CheckIntersects = some false := by
  have hwall : ¬ (h.pos_.y < 0 ∨ h.pos_.y ≥ N ∨ h.pos_.x < 0 ∨ h.pos_.x ≥ M) := by
    unfold onBoard at hon
    omega
  simp only [Snake.CheckIntersects, hhead, if_neg hwall, Option.some.injEq]
  by_contra hcon
  have htrue : ((List.range s.bodies.length).any fun i =>
      (List.range s.bodies.length).any fun j =>
        if i = j then false else s.samePositionAt i j) = true := by
    simpa using hcon
  simp only [List.any_eq_true, List.mem_range] at htrue
  obtain ⟨i, hi, j, -, hij⟩ := htrue
  by_cases hne : i = j
  · simp [hne] at hij
  · rw [if_neg hne, Snake.samePositionAt_eq_true] at hij
    obtain ⟨a, b, ha, hb, hab⟩ := hij
    apply hne
    apply List.getElem?_inj (by simpa using hi) hnodup
    simp [List.getElem?_map, ha, hb, hab]

theorem eatTick_tick (g g1 : Game) (d : Direction) (cell : Vector2i) (htidy : g.Tidy)
    (heat : eatTick g d cell = some g1) :
    tick g d [cell] = some g1 ∧ g1.Tidy ∧ g1.snake.score_ = g.snake.score_ + 1 ∧
      g1.snake.bodies.length = g.snake.bodies.length + 1 := by
  obtain ⟨hover, hne, hlinked, hboard, hnodup, hfood⟩ := htidy
  rcases g with ⟨⟨bodies, t, sc⟩, food, delay, over⟩
  cases bodies with
  | nil => exact absurd rfl hne
  | cons b0 rest =>
    simp only at hover hlinked hboard hnodup hfood
    subst hover
    obtain ⟨e, last, he, hlast, hedef, hmoved⟩ := Snake.Move_linked b0 rest t sc d hlinked
    simp only [eatTick, ← hedef, hlast, Option.getD_some] at heat
    split_ifs at heat with hcond
    obtain ⟨hstep, hfoodOn, hcell⟩ := hcond
    simp only [Option.some.injEq] at heat
    subst heat
    have hchk : (Snake.mk (b0 :: rest) t sc).CheckIntersects = some false :=
      Snake.CheckIntersects_of_nodup _ b0 rfl (hboard b0 (List.mem_cons_self _ _)) hnodup
    have hback : (b0 :: rest).dropLast ++ [last] = b0 :: rest :=
      List.dropLast_append_getLast? last hlast
    have hfree : ∀ b ∈ b0 :: rest, b.pos_ ≠ food :=
      (Snake.HasPosition_eq_false_iff ⟨b0 :: rest, t, sc⟩ food).mp hfood
    refine ⟨?_, ⟨rfl, by simp, ⟨he, hstep.symm, hlinked⟩, ?_, ?_, hcell⟩, rfl, by simp⟩
    · rw [tick_running _ d [cell] _ rfl hchk hmoved]
      have hpos : (Snake.mk (⟨Body.shift b0.pos_ e, e⟩ :: (b0 :: rest).dropLast) last
          sc).GetPosition = some food := by
        simp [Snake.GetPosition, Snake.Head, hstep]
      rw [if_pos hpos]
      simp only [Snake.Eat, List.cons_append, hback, hstep, reset_food, hcell,
        Bool.false_eq_true, if_false, Option.map]
    · intro b hb
      rcases List.mem_cons.mp hb with rfl | hb
      · exact hfoodOn
      · exact hboard b hb
    · simp only [List.map_cons, List.nodup_cons] at hnodup ⊢
      refine ⟨?_, hnodup⟩
      intro hmem
      rcases List.mem_cons.mp hmem with h0 | hmem
      · exact hfree b0 (List.mem_cons_self _ _) h0.symm
      · obtain ⟨b, hb, hbpos⟩ := List.mem_map.mp hmem
        exact hfree b (List.mem_cons_of_mem _ hb) hbpos

theorem eatRun_ticks (g g1 : Game) (run : List (Direction × Vector2i)) (htidy : g.Tidy)
    (hrun : eatRun g run = some g1) :
    ticks g (run.map fun step => (step.1, [step.2])) = some g1 ∧ g1.Tidy ∧
      g1.snake.score_ = g.snake.score_ + run.length ∧
      g1.snake.bodies.length = g.snake.bodies.length + run.length := by
  induction run generalizing g with
  | nil =>
    simp only [eatRun, Option.some.injEq] at hrun
    subst hrun
    exact ⟨rfl, htidy, by simp, by simp⟩
  | cons step more ih =>
    obtain ⟨d, cell⟩ := step
    cases heat : eatTick g d cell with
    | none => simp [eatRun, heat] at hrun
    | some g2 =>
      simp only [eatRun, heat] at hrun
      obtain ⟨htick, htidy2, hscore2, hlen2⟩ := eatTick_tick g g2 d cell htidy heat
      obtain ⟨hticks, htidy1, hscore1, hlen1⟩ := ih g2 htidy2 hrun
      refine ⟨by simp only [List.map_cons, ticks, htick, hticks], htidy1, ?_, ?_⟩
      · rw [hscore1, hscore2, List.length_cons]
        push_cast
        ring
      · rw [hlen1, hlen2, List.length_cons]
        ring

theorem openingGame_tidy (cell : Vector2i) (hfree : openingSnake.HasPosition cell = false) :
    (openingGame cell).Tidy := by
  have h1 : openingSnake.bodies ≠ [] := by decide
  have h2 : Snake.linked openingSnake.bodies := by decide
  have h3 : ∀ b ∈ openingSnake.bodies, onBoard b.pos_ := by decide
  have h4 : (openingSnake.bodies.map Body.pos_).Nodup := by decide
  exact ⟨rfl, h1, h2, h3, h4, hfree⟩

theorem eatRun_of_summary {α : Type} (run : Option Game) (f : Game → α) (a : α)
    (h : run.map f = some a) : ∃ g, run = some g ∧ f g = a := by
  cases run with
  | none => simp at h
  | some g =>
    simp only [Option.map, Option.some.injEq] at h
    exact ⟨g, rfl, h⟩

set_option maxRecDepth 100000 in
/-- Along the path, 51 eating ticks from the opening game with the food at
`(4,0)` are possible. -/
theorem pathRun_51 :
    (eatRun (openingGame ⟨4, 0⟩) (pathRun 51 ⟨3, 0⟩)).map (fun g => g.snake.score_) =
      some 51 := by
  decide!

set_option maxRecDepth 100000 in
/-- Along the path, 196 eating ticks from the opening game with the food at
`(4,0)` are possible; they leave the head at `(0,1)` facing `UP`, the food at
`(0,0)`, and a chain of 199 segments on every other cell of the board. -/
theorem pathRun_196 :
    (eatRun (openingGame ⟨4, 0⟩) (pathRun 196 ⟨3, 0⟩)).map
        (fun g => (g.snake.Head, g.food, coveredButCorner g.snake)) =
      some (some ⟨⟨0, 1⟩, Direction.UP⟩, ⟨0, 0⟩, true) := by
  decide!

theorem pathRun_length (n : Nat) (h : Vector2i) : (pathRun n h).length = n := by
  induction n generalizing h with
  | zero => rfl
  | succ k ih => simp [pathRun, ih]

theorem coveredButCorner_spec (s : Snake) (hcov : coveredButCorner s = true) (q : Vector2i)
    (hq : onBoard q) : q = ⟨0, 0⟩ ∨ s.HasPosition q = true := by
  unfold onBoard M N at hq
  obtain ⟨x, hx⟩ := Int.eq_ofNat_of_zero_le hq.1
  obtain ⟨y, hy⟩ := Int.eq_ofNat_of_zero_le hq.2.2.1
  have hx10 : x < 10 := by omega
  have hy20 : y < 20 := by omega
  simp only [coveredButCorner, List.all_eq_true, List.mem_range, Bool.or_eq_true,
    decide_eq_true_eq] at hcov
  have hq_eq : q = ⟨(x : Int), (y : Int)⟩ := by
    rcases q with ⟨qx, qy⟩
    simp only at hx hy
    rw [hx, hy]
  rcases hcov x hx10 y hy20 with ⟨rfl, rfl⟩ | hpos
  · left
    rw [hq_eq]
    rfl
  · right
    rw [hq_eq]
    exact hpos

/-! ## A run that makes the tick interval negative (C13) -/

/-- C13 as stated fails: after 51 food consumptions the tick interval is
negative, in the `float` arithmetic of the code (-5368611/2^29) as well as in
exact arithmetic (1/2 - 51/100).  The game reaches that point: 51 eating ticks
along the path from the opening state return a running game with score 51
and a negative `delay`. -/
theorem delay_floor_counterexample :
    delayAfter 51 = -5368611 / 536870912 ∧ delayAfter 51 < 0 ∧
    (1 / 2 - 51 * (1 / 100) : ℚ) < 0 ∧
    opening [⟨4, 0⟩] = some (openingGame ⟨4, 0⟩) ∧
    ∃ g, ticks (openingGame ⟨4, 0⟩) (pathInputs 51) = some g ∧ g.GameOver = false ∧
      g.snake.GetScore = 51 ∧ g.delay < 0 := by
  have hopen := openingGame_run ⟨4, 0⟩ (by decide)
  have hneg : delayAfter 51 < 0 := by
    rw [delayAfter_51]
    norm_num
  refine ⟨delayAfter_51, hneg, by norm_num, hopen, ?_⟩
  obtain ⟨g, hrun, hscore⟩ := eatRun_of_summary _ _ _ pathRun_51
  obtain ⟨hticks, htidy, -, -⟩ := eatRun_ticks (openingGame ⟨4, 0⟩) g (pathRun 51 ⟨3, 0⟩)
    (openingGame_tidy ⟨4, 0⟩ (by decide)) hrun
  obtain ⟨-, -, -, -, -, -, hdelay⟩ :=
    Game.sound_run [⟨4, 0⟩] (pathInputs 51) (openingGame ⟨4, 0⟩) g hopen hticks
  refine ⟨g, hticks, htidy.1, hscore, ?_⟩
  rw [hdelay, hscore]
  exact hneg

/-! ## The scoring tick (C6) -/

/-- C6, as the code has it.  In a running game that passes the collision
test the tick moves the chain (`moved`).  If the moved head is on the food
cell and the samples contain a cell free of the grown chain, the tick returns
a game whose chain is `moved.Eat`: one segment longer, score raised by 1,
`delay` replaced by the `float` result of `delay -= 0.01` (`delayStep`), food
on a cell no segment occupies; if every sample is occupied by the grown chain
the tick does not return.  If the moved head is not on the food cell, the tick
returns a game with chain `moved` and the same length, score, `delay` and food
position. -/
theorem tick_scoring (g : Game) (d : Direction) (samples : List Vector2i)
    (hrun : g.GameOver = false) (hchk : g.snake.CheckIntersects = some false) :
    ∃ moved, g.snake.Move d = some moved ∧
      (moved.GetPosition = some g.food →
        ((∃ q ∈ samples, moved.Eat.HasPosition q = false) →
          ∃ g1, tick g d samples = some g1 ∧ g1.snake = moved.Eat ∧
            g1.snake.bodies.length = g.snake.bodies.length + 1 ∧
            g1.snake.GetScore = g.snake.GetScore + 1 ∧
            g1.delay = delayStep g.delay ∧
            g1.snake.HasPosition g1.food = false ∧
            g1.GameOver = false) ∧
        ((∀ q ∈ samples, moved.Eat.HasPosition q = true) → tick g d samples = none)) ∧
      (moved.GetPosition ≠ some g.food →
        ∃ g1, tick g d samples = some g1 ∧ g1.snake = moved ∧
          g1.snake.bodies.length = g.snake.bodies.length ∧
          g1.snake.GetScore = g.snake.GetScore ∧
          g1.delay = g.delay ∧
          g1.food = g.food ∧
          g1.GameOver = false) := by
  have hne : g.snake.bodies ≠ [] := by
    intro h0
    simp [Snake.CheckIntersects, Snake.Head, h0] at hchk
  obtain ⟨moved, last, hmove, -, -, hscore, hlen⟩ := Snake.Move_length g.snake d hne
  refine ⟨moved, hmove, fun hfood => ⟨fun hfree => ?_, fun hocc => ?_⟩, fun hfood => ?_⟩
  · obtain ⟨cell, hcell⟩ : ∃ cell, reset_food moved.Eat samples = some cell := by
      obtain ⟨q, hq, hqfree⟩ := hfree
      clear hfood
      induction samples with
      | nil => simp at hq
      | cons c more ih =>
        by_cases hc : moved.Eat.HasPosition c = true
        · rcases List.mem_cons.mp hq with rfl | hmem
          · rw [hqfree] at hc
            exact absurd hc (by simp)
          · simpa [reset_food, hc] using ih hmem
        · exact ⟨c, by simp [reset_food, hc]⟩
    obtain ⟨-, -, -, -, hcellfree⟩ := (reset_food_first_free _ _ _).mp hcell
    refine ⟨{ g with snake := moved.Eat, delay := delayStep g.delay, food := cell },
      by rw [tick_running g d samples moved hrun hchk hmove, if_pos hfood, hcell]; rfl,
      rfl, ?_, ?_, rfl, hcellfree, hrun⟩
    · simp [Snake.Eat, hlen]
    · simp [Snake.Eat, Snake.GetScore, hscore]
  · rw [tick_running g d samples moved hrun hchk hmove, if_pos hfood,
      (reset_food_all_occupied moved.Eat samples hocc).1]
    rfl
  · exact ⟨{ g with snake := moved },
      by rw [tick_running g d samples moved hrun hchk hmove, if_neg hfood],
      rfl, hlen, by simp [Snake.GetScore, hscore], rfl, rfl, hrun⟩

/-- Witness of C6 as amended: from the chain `(2,0),(1,0),(0,0)` heading
`RIGHT` with the food at `(5,0)`, two ticks lead to `foodGame`; the next tick
reaches the food and returns a game with chain length 4, score 1 and `delay`
2055209/2^22 (about 0.4900000095). -/
theorem tick_scoring_witness :
    ticks scenarioGame [(Direction.NONE, []), (Direction.NONE, [])] = some foodGame ∧
    ∃ g1, tick foodGame Direction.NONE [⟨5, 0⟩, ⟨7, 7⟩] = some g1 ∧
      g1.snake.GetPosition = some ⟨5, 0⟩ ∧
      g1.snake.bodies.length = 4 ∧ g1.snake.GetScore = 1 ∧
      g1.delay = 2055209 / 4194304 ∧
      g1.snake.HasPosition g1.food = false := by
  refine ⟨rfl, ?_⟩
  obtain ⟨moved, hmove, hfood, -⟩ :=
    tick_scoring foodGame Direction.NONE [⟨5, 0⟩, ⟨7, 7⟩] rfl (by decide)
  have hmoved : foodGame.snake.Move Direction.NONE =
      some ⟨[⟨⟨5, 0⟩, Direction.RIGHT⟩, ⟨⟨4, 0⟩, Direction.RIGHT⟩, ⟨⟨3, 0⟩, Direction.RIGHT⟩],
        ⟨⟨2, 0⟩, Direction.RIGHT⟩, 0⟩ := by decide
  rw [hmoved] at hmove
  cases hmove
  obtain ⟨g1, htick, hsnake, hlen, hscore, hdelay, hfree, -⟩ :=
    (hfood rfl).1 ⟨⟨7, 7⟩, by simp, by decide⟩
  refine ⟨g1, htick, ?_, hlen, hscore, ?_, hfree⟩
  · rw [hsnake]
    rfl
  · rw [hdelay]
    exact delayStep_half

/-- C6 as stated fails, in two ways.  (1) From the opening state, 196 eating
ticks along the path return a running game that passes the collision test, with
199 segments and the food at `(0,0)`; the move `UP` of the next tick puts the
head on the food cell, the grown chain then covers all 200 cells, and the tick
does not return, whatever cells of the board are sampled: the food is not
re-placed.  (2) The scoring tick of `foodGame` takes `delay` from 1/2 to
2055209/2^22 (about 0.4900000095), not to 1/2 - 1/100. -/
theorem tick_scoring_counterexample :
    (opening [⟨4, 0⟩] = some (openingGame ⟨4, 0⟩) ∧
      ∃ g, ticks (openingGame ⟨4, 0⟩) (pathInputs 196) = some g ∧
        g.GameOver = false ∧ g.snake.CheckIntersects = some false ∧
        g.snake.bodies.length = 199 ∧ g.food = ⟨0, 0⟩ ∧
        (∃ moved, g.snake.Move Direction.UP = some moved ∧
          moved.GetPosition = some g.food) ∧
        tick g Direction.UP [⟨0, 0⟩, ⟨5, 5⟩, ⟨9, 19⟩] = none ∧
        ∀ samples, (∀ q ∈ samples, onBoard q) → tick g Direction.UP samples = none) ∧
    (tick foodGame Direction.NONE [⟨5, 0⟩, ⟨7, 7⟩]).map Game.delay =
      some (2055209 / 4194304) ∧
    (2055209 / 4194304 : ℚ) ≠ 1 / 2 - 1 / 100 := by
  refine ⟨⟨openingGame_run ⟨4, 0⟩ (by decide), ?_⟩, ?_, by norm_num⟩
  · obtain ⟨g, hrun, hsum⟩ := eatRun_of_summary _ _ _ pathRun_196
    simp only [Prod.mk.injEq] at hsum
    obtain ⟨hhead, hfoodcell, hcov⟩ := hsum
    obtain ⟨hticks, htidy, -, hlen⟩ := eatRun_ticks (openingGame ⟨4, 0⟩) g (pathRun 196 ⟨3, 0⟩)
      (openingGame_tidy ⟨4, 0⟩ (by decide)) hrun
    obtain ⟨hover, -, hlinked, hboard, hnodup, -⟩ := htidy
    rw [pathRun_length] at hlen
    rcases g with ⟨⟨bodies, t, sc⟩, food, delay, over⟩
    simp only at hhead hfoodcell hcov hover hlinked hboard hnodup hlen
    subst hfoodcell hover
    cases bodies with
    | nil => simp [Snake.Head] at hhead
    | cons b0 rest =>
      simp only [Snake.Head, List.head?_cons, Option.some.injEq] at hhead
      subst hhead
      have hchk : (Snake.mk (⟨⟨0, 1⟩, Direction.UP⟩ :: rest) t sc).CheckIntersects =
          some false :=
        Snake.CheckIntersects_of_nodup _ ⟨⟨0, 1⟩, Direction.UP⟩ rfl (by decide) hnodup
      obtain ⟨e, last, -, hlast, hedef, hmoved⟩ :=
        Snake.Move_linked ⟨⟨0, 1⟩, Direction.UP⟩ rest t sc Direction.UP hlinked
      have he : e = Direction.UP := by
        rw [hedef]
        decide
      subst he
      have hpos : (Snake.mk (⟨Body.shift ⟨0, 1⟩ Direction.UP, Direction.UP⟩ ::
          (⟨⟨0, 1⟩, Direction.UP⟩ :: rest).dropLast) last sc).GetPosition =
          some ⟨0, 0⟩ := rfl
      have hback : (⟨⟨0, 1⟩, Direction.UP⟩ :: rest).dropLast ++ [last] =
          ⟨⟨0, 1⟩, Direction.UP⟩ :: rest := List.dropLast_append_getLast? last hlast
      have hfull : ∀ samples, (∀ q ∈ samples, onBoard q) →
          tick ⟨⟨⟨⟨0, 1⟩, Direction.UP⟩ :: rest, t, sc⟩, ⟨0, 0⟩, delay, false⟩ Direction.UP
            samples = none := by
        intro samples hsamples
        rw [tick_running _ Direction.UP samples _ rfl hchk hmoved, if_pos hpos]
        have hocc : ∀ q ∈ samples, (Snake.mk (⟨Body.shift ⟨0, 1⟩ Direction.UP, Direction.UP⟩ ::
            (⟨⟨0, 1⟩, Direction.UP⟩ :: rest).dropLast) last sc).Eat.HasPosition q = true := by
          intro q hq
          simp only [Snake.Eat, List.cons_append, hback]
          rcases coveredButCorner_spec _ hcov q (hsamples q hq) with rfl | hcovered
          · rfl
          · have hmem := (Snake.HasPosition_eq_true_iff _ q).mp hcovered
            apply (Snake.HasPosition_eq_true_iff _ q).mpr
            obtain ⟨b, hb, hbq⟩ := hmem
            exact ⟨b, List.mem_cons_of_mem _ hb, hbq⟩
        rw [(reset_food_all_occupied _ samples hocc).1]
        rfl
      refine ⟨_, hticks, rfl, hchk, by simpa using hlen, rfl, ⟨_, hmoved, hpos⟩,
        hfull _ (by decide), hfull⟩
  · have htick : tick foodGame Direction.NONE [⟨5, 0⟩, ⟨7, 7⟩] = some fedGame := rfl
    rw [htick]
    simp only [Option.map, fedGame, delayStep_half]

end TheSnake
